import Mathlib

/-!
Verification of the yml-diff tool (src/main.rs) against its specification.

The development shallowly embeds the Rust source:

* `Value` embeds `serde_yaml::Value` (numbers are modelled as integers;
  floating-point leaves are outside the embedding, no claim depends on them).
  `serde_yaml::Mapping` (an insertion-ordered `IndexMap`) is modelled as a
  `List (Value × Value)` of entries in insertion order; the `IndexMap`
  key-uniqueness invariant is the predicate `wfValue`.
* `hierarchical_cmp` embeds `ConfigKey::hierarchical_cmp`.  Rust `&str`
  ordering is byte-wise lexicographic on UTF-8; since UTF-8 preserves
  codepoint order this is the same order as `charsCmp` below, which compares
  `Char` codepoints position by position.
* `extract_key_vals` embeds the flattening function of the same name.  The
  Rust `HashMap<String, &Value>` is modelled as an association list with
  replace-on-insert semantics (`hinsert`); `hextend` models `HashMap::extend`.
* `cmp_yml_vals` embeds the diff engine of the same name.  The `BTreeMap`
  results are modelled as association lists; since the key comparator is
  `Equal` exactly on identical strings (proved below), the contents of the
  result maps are order-independent and all claims about them are stated via
  membership.
* `valueEq` embeds `serde_yaml`'s `PartialEq` for `Value` (deep structural
  equality, order-independent on mappings).
* `get_val_string` embeds the value renderer.  The Rust code dumps the
  mapping case through an `std::collections::HashMap` whose Debug iteration
  order depends on the per-map random hash seed; that order is modelled as an
  explicit reordering parameter, constrained to be a permutation.
* `read_cfg` embeds the config loader, with the file system and the YAML
  parser as explicit function parameters.
-/

/-- Embeds `serde_yaml::Value`.  Numbers are modelled as integers. -/
inductive Value where
  | null
  | bool (b : Bool)
  | number (n : Int)
  | str (s : String)
  | sequence (xs : List Value)
  | mapping (entries : List (Value × Value))
  | tagged (tag : String) (v : Value)

/-- Embeds `Value::as_str`: `some` exactly on the `String` variant. -/
def asStr : Value → Option String
  | .str s => some s
  | _ => none

/-- True exactly on the `Mapping` variant. -/
def isMapping : Value → Bool
  | .mapping _ => true
  | _ => false

/-- Three-way comparison on `Nat`, embedding Rust `usize::cmp`. -/
def natCmp (m n : Nat) : Ordering :=
  if m < n then .lt else if n < m then .gt else .eq

/-- Lexicographic three-way comparison of char lists by codepoint, embedding
Rust `str::cmp` (byte-wise UTF-8 comparison, which coincides with codepoint
order). -/
def charsCmp : List Char → List Char → Ordering
  | [], [] => .eq
  | [], _ :: _ => .lt
  | _ :: _, [] => .gt
  | a :: as, b :: bs =>
    match natCmp a.toNat b.toNat with
    | .eq => charsCmp as bs
    | o => o

/-- Embeds Rust `s.split('.')` on the underlying characters: splitting an
empty string yields one empty segment, every `'.'` separates segments. -/
def splitDot : List Char → List (List Char)
  | [] => [[]]
  | c :: cs =>
    if c = '.' then [] :: splitDot cs
    else
      match splitDot cs with
      | s :: rest => (c :: s) :: rest
      | [] => [[c]]

/-- Inverse of `splitDot`: joins segments with `'.'`. -/
def joinDot : List (List Char) → List Char
  | [] => []
  | [s] => s
  | s :: rest => s ++ '.' :: joinDot rest

/-- Length of the common leading run of equal segments, embedding the
`zip`/`take_while`/`count` computation in `hierarchical_cmp`. -/
def commonLen : List (List Char) → List (List Char) → Nat
  | a :: as, b :: bs => if a = b then commonLen as bs + 1 else 0
  | _, _ => 0

/-- Segment list of a path. -/
def segs (p : String) : List (List Char) := splitDot p.data

/-- Three-way comparison of full path strings, embedding Rust `String::cmp`. -/
def strCmp (a b : String) : Ordering := charsCmp a.data b.data

/-- Embeds `ConfigKey::hierarchical_cmp` from src/main.rs. -/
def hierarchical_cmp (a b : String) : Ordering :=
  let self_parts := segs a
  let other_parts := segs b
  let common_prefix_len := commonLen self_parts other_parts
  if 0 < common_prefix_len then
    if common_prefix_len = self_parts.length ∧ self_parts.length < other_parts.length then
      .lt
    else if common_prefix_len = other_parts.length ∧ other_parts.length < self_parts.length then
      .gt
    else
      match natCmp self_parts.length other_parts.length with
      | .eq =>
        if common_prefix_len < min self_parts.length other_parts.length then
          charsCmp (self_parts.getD common_prefix_len []) (other_parts.getD common_prefix_len [])
        else
          strCmp a b
      | o => o
  else
    strCmp a b

example : hierarchical_cmp "a" "a.b" = .lt := by decide
example : hierarchical_cmp "a.z" "a.b.c" = .lt := by decide
example : hierarchical_cmp "a.b" "b" = .lt := by decide
example : hierarchical_cmp "db.host" "db.port" = .lt := by decide

/-! ### Basic facts about the comparison primitives -/

theorem natCmp_eq_iff {m n : Nat} : natCmp m n = .eq ↔ m = n := by
  unfold natCmp; split_ifs <;> simp <;> omega

theorem natCmp_lt_iff {m n : Nat} : natCmp m n = .lt ↔ m < n := by
  unfold natCmp; split_ifs <;> simp <;> omega

theorem natCmp_gt_iff {m n : Nat} : natCmp m n = .gt ↔ n < m := by
  unfold natCmp; split_ifs <;> simp <;> omega

theorem natCmp_swap (m n : Nat) : natCmp n m = (natCmp m n).swap := by
  unfold natCmp
  split_ifs <;> first | (exfalso; omega) | simp [Ordering.swap]

theorem charToNat_injective {a b : Char} (h : a.toNat = b.toNat) : a = b :=
  Char.ext_iff.mpr (UInt32.ext h)

theorem charsCmp_cons (a b : Char) (as bs : List Char) :
    charsCmp (a :: as) (b :: bs) =
      if a.toNat < b.toNat then .lt
      else if b.toNat < a.toNat then .gt
      else charsCmp as bs := by
  simp only [charsCmp, natCmp]
  split_ifs <;> rfl

theorem charsCmp_eq_iff : ∀ {u v : List Char}, charsCmp u v = .eq ↔ u = v
  | [], [] => by simp [charsCmp]
  | [], _ :: _ => by simp [charsCmp]
  | _ :: _, [] => by simp [charsCmp]
  | a :: as, b :: bs => by
    have ih := @charsCmp_eq_iff as bs
    rw [charsCmp_cons]
    split_ifs with h1 h2
    · simp only [List.cons.injEq]
      constructor
      · intro hc; exact absurd hc (by decide)
      · rintro ⟨rfl, -⟩; exact absurd h1 (lt_irrefl _)
    · simp only [List.cons.injEq]
      constructor
      · intro hc; exact absurd hc (by decide)
      · rintro ⟨rfl, -⟩; exact absurd h2 (lt_irrefl _)
    · have hab : a = b := charToNat_injective (by omega)
      subst hab
      simp [ih]

theorem charsCmp_swap : ∀ (u v : List Char), charsCmp v u = (charsCmp u v).swap
  | [], [] => rfl
  | [], _ :: _ => rfl
  | _ :: _, [] => rfl
  | a :: as, b :: bs => by
    have ih := charsCmp_swap as bs
    rw [charsCmp_cons, charsCmp_cons]
    split_ifs <;> first | (exfalso; omega) | simp [Ordering.swap, ih]

theorem charsCmp_lt_trans : ∀ {u v w : List Char},
    charsCmp u v = .lt → charsCmp v w = .lt → charsCmp u w = .lt
  | [], [], _ => fun h1 _ => absurd h1 (by simp [charsCmp])
  | [], _ :: _, [] => fun _ h2 => absurd h2 (by simp [charsCmp])
  | [], _ :: _, _ :: _ => fun _ _ => rfl
  | _ :: _, [], _ => fun h1 _ => absurd h1 (by simp [charsCmp])
  | _ :: _, _ :: _, [] => fun _ h2 => absurd h2 (by simp [charsCmp])
  | a :: as, b :: bs, c :: cs => fun h1 h2 => by
    have ih := @charsCmp_lt_trans as bs cs
    rw [charsCmp_cons] at h1 h2 ⊢
    split_ifs at h1 h2 ⊢ <;>
      first
        | rfl
        | (exact absurd h1 (by decide))
        | (exact absurd h2 (by decide))
        | (exfalso; omega)
        | (exact ih h1 h2)

theorem charsCmp_append_left : ∀ (w u v : List Char), charsCmp (w ++ u) (w ++ v) = charsCmp u v
  | [], _, _ => rfl
  | c :: cs, u, v => by
    rw [List.cons_append, List.cons_append, charsCmp_cons]
    simp only [lt_irrefl, if_false]
    exact charsCmp_append_left cs u v

theorem charsCmp_self_append_lt (u v : List Char) (hv : v ≠ []) : charsCmp u (u ++ v) = .lt := by
  have h := charsCmp_append_left u [] v
  rw [List.append_nil] at h
  rw [h]
  cases v with
  | nil => exact absurd rfl hv
  | cons c cs => rfl

theorem charsCmp_between : ∀ (w : List Char) {x b y : List Char},
    charsCmp (w ++ x) b = .lt → charsCmp b (w ++ y) = .lt → ∃ z, b = w ++ z
  | [], x, b, y => by intro _ _; exact ⟨b, rfl⟩
  | c :: cs, x, b, y => by
    intro h1 h2
    cases b with
    | nil => exact absurd h1 (by simp [charsCmp])
    | cons d ds =>
      rw [List.cons_append, charsCmp_cons] at h1
      rw [List.cons_append, charsCmp_cons] at h2
      split_ifs at h1 h2 <;>
        first
          | (exact absurd h1 (by decide))
          | (exact absurd h2 (by decide))
          | (exfalso; omega)
          | skip
      have hdc : d = c := charToNat_injective (by omega)
      subst hdc
      obtain ⟨z, hz⟩ := charsCmp_between cs h1 h2
      exact ⟨z, by simp [hz]⟩

/-! ### Facts about splitting and joining paths -/

theorem splitDot_ne_nil (l : List Char) : splitDot l ≠ [] := by
  cases l with
  | nil => simp [splitDot]
  | cons c cs =>
    simp only [splitDot]
    split_ifs
    · simp
    · rcases hs : splitDot cs with _ | ⟨s, rest⟩ <;> simp [hs]

theorem joinDot_splitDot : ∀ (l : List Char), joinDot (splitDot l) = l
  | [] => rfl
  | c :: cs => by
    have ih := joinDot_splitDot cs
    simp only [splitDot]
    split_ifs with hc
    · subst hc
      rcases hs : splitDot cs with _ | ⟨s, rest⟩
      · exact absurd hs (splitDot_ne_nil cs)
      · rw [hs] at ih
        simp only [joinDot, List.nil_append]
        rw [ih]
    · rcases hs : splitDot cs with _ | ⟨s, rest⟩
      · exact absurd hs (splitDot_ne_nil cs)
      · rw [hs] at ih
        simp only [hs]
        rcases rest with _ | ⟨r, rs⟩
        · simp only [joinDot] at ih ⊢
          rw [ih]
        · simp only [joinDot] at ih ⊢
          rw [List.cons_append, ih]

theorem splitDot_injective {l m : List Char} (h : splitDot l = splitDot m) : l = m := by
  have hl := joinDot_splitDot l
  have hm := joinDot_splitDot m
  rw [← hl, ← hm, h]

theorem noDot_of_mem_splitDot : ∀ (l s : List Char), s ∈ splitDot l → '.' ∉ s
  | [], s => by
    intro hs
    simp [splitDot] at hs
    simp [hs]
  | c :: cs, s => by
    intro hs
    simp only [splitDot] at hs
    split_ifs at hs with hc
    · rcases List.mem_cons.mp hs with rfl | hmem
      · simp
      · exact noDot_of_mem_splitDot cs s hmem
    · rcases hrec : splitDot cs with _ | ⟨t, rest⟩
      · exact absurd hrec (splitDot_ne_nil cs)
      · rw [hrec] at hs
        rcases List.mem_cons.mp hs with rfl | hmem
        · intro hdot
          rcases List.mem_cons.mp hdot with rfl | hmem'
          · exact hc rfl
          · exact noDot_of_mem_splitDot cs t (by rw [hrec]; exact List.mem_cons_self t rest) hmem'
        · exact noDot_of_mem_splitDot cs s (by rw [hrec]; exact List.mem_cons_of_mem t hmem)

theorem splitDot_append : ∀ (u v : List Char), splitDot (u ++ '.' :: v) = splitDot u ++ splitDot v
  | [], v => by simp [splitDot]
  | c :: cs, v => by
    have ih := splitDot_append cs v
    simp only [List.cons_append, splitDot, List.append_eq]
    split_ifs
    · rw [ih]; rfl
    · rw [ih]
      rcases hs : splitDot cs with _ | ⟨s, rest⟩
      · exact absurd hs (splitDot_ne_nil cs)
      · simp

theorem splitDot_eq_single : ∀ (l : List Char), '.' ∉ l → splitDot l = [l]
  | [], _ => rfl
  | c :: cs, h => by
    have hc : ¬c = '.' := fun hcc => h (hcc ▸ List.mem_cons_self c cs)
    have ih := splitDot_eq_single cs (fun hm => h (List.mem_cons_of_mem c hm))
    simp only [splitDot, if_neg hc, ih]

/-! ### Facts about the common leading run of segments -/

theorem commonLen_symm : ∀ (xs ys : List (List Char)), commonLen xs ys = commonLen ys xs
  | [], [] => rfl
  | [], _ :: _ => rfl
  | _ :: _, [] => rfl
  | x :: xs, y :: ys => by
    simp only [commonLen]
    rcases eq_or_ne x y with rfl | hne
    · simp [commonLen_symm xs ys]
    · rw [if_neg hne, if_neg (fun h => hne h.symm)]

theorem commonLen_le_left : ∀ (xs ys : List (List Char)), commonLen xs ys ≤ xs.length
  | [], [] => le_refl _
  | [], _ :: _ => le_refl _
  | _ :: _, [] => by simp [commonLen]
  | x :: xs, y :: ys => by
    simp only [commonLen, List.length_cons]
    split_ifs
    · exact Nat.succ_le_succ (commonLen_le_left xs ys)
    · exact Nat.zero_le _

theorem commonLen_le_right (xs ys : List (List Char)) : commonLen xs ys ≤ ys.length := by
  rw [commonLen_symm]; exact commonLen_le_left ys xs

theorem commonLen_pos_iff_heads_eq (x y : List Char) (xs ys : List (List Char)) :
    0 < commonLen (x :: xs) (y :: ys) ↔ x = y := by
  simp only [commonLen]
  split_ifs with h <;> simp [h]

theorem eq_of_commonLen_lengths : ∀ (xs ys : List (List Char)),
    commonLen xs ys = xs.length → xs.length = ys.length → xs = ys
  | [], [], _, _ => rfl
  | [], _ :: _, _, h => by simp at h
  | _ :: _, [], _, h => by simp at h
  | x :: xs, y :: ys, hc, hl => by
    simp only [commonLen, List.length_cons] at hc hl
    split_ifs at hc with h
    rw [h, eq_of_commonLen_lengths xs ys (Nat.succ_injective hc) (Nat.succ_injective hl)]

theorem commonLen_append_self : ∀ (xs ys : List (List Char)),
    commonLen xs (xs ++ ys) = xs.length
  | [], [] => rfl
  | [], y :: ys => rfl
  | x :: xs, ys => by
    simp [commonLen, commonLen_append_self xs ys]

/-- Comparison of two segment lists at the first differing position (used to
characterise the comparator on equal-length segment lists). -/
def firstDiffCmp : List (List Char) → List (List Char) → Ordering
  | a :: as, b :: bs => if a = b then firstDiffCmp as bs else charsCmp a b
  | _, _ => .eq

theorem firstDiffCmp_swap : ∀ (xs ys : List (List Char)),
    firstDiffCmp ys xs = (firstDiffCmp xs ys).swap
  | [], [] => rfl
  | [], _ :: _ => rfl
  | _ :: _, [] => rfl
  | x :: xs, y :: ys => by
    simp only [firstDiffCmp]
    rcases eq_or_ne x y with rfl | hne
    · simp [firstDiffCmp_swap xs ys]
    · rw [if_neg hne, if_neg (fun h => hne h.symm), charsCmp_swap]

theorem firstDiffCmp_eq_iff : ∀ (xs ys : List (List Char)), xs.length = ys.length →
    (firstDiffCmp xs ys = .eq ↔ xs = ys)
  | [], [], _ => by simp [firstDiffCmp]
  | [], _ :: _, h => by simp at h
  | _ :: _, [], h => by simp at h
  | x :: xs, y :: ys, h => by
    simp only [firstDiffCmp]
    rcases eq_or_ne x y with rfl | hne
    · simp only [if_pos rfl, List.cons.injEq, true_and]
      exact firstDiffCmp_eq_iff xs ys (Nat.succ_injective h)
    · rw [if_neg hne]
      simp only [List.cons.injEq]
      constructor
      · intro hc; exact absurd (charsCmp_eq_iff.mp hc) hne
      · rintro ⟨rfl, -⟩; exact absurd rfl hne

theorem firstDiffCmp_lt_trans : ∀ {xs ys zs : List (List Char)},
    firstDiffCmp xs ys = .lt → firstDiffCmp ys zs = .lt → firstDiffCmp xs zs = .lt
  | [], [], _ => fun h1 _ => absurd h1 (by simp [firstDiffCmp])
  | [], _ :: _, _ => fun h1 _ => absurd h1 (by simp [firstDiffCmp])
  | _ :: _, [], _ => fun h1 _ => absurd h1 (by simp [firstDiffCmp])
  | _ :: _, _ :: _, [] => fun _ h2 => absurd h2 (by simp [firstDiffCmp])
  | x :: xs, y :: ys, z :: zs => fun h1 h2 => by
    simp only [firstDiffCmp] at h1 h2 ⊢
    rcases eq_or_ne x y with rfl | hxy
    · rw [if_pos rfl] at h1
      rcases eq_or_ne x z with rfl | hxz
      · rw [if_pos rfl] at h2 ⊢
        exact firstDiffCmp_lt_trans h1 h2
      · rw [if_neg hxz] at h2 ⊢
        exact h2
    · rw [if_neg hxy] at h1
      rcases eq_or_ne y z with rfl | hyz
      · rw [if_pos rfl] at h2
        rw [if_neg hxy]
        exact h1
      · rw [if_neg hyz] at h2
        have hxz : x ≠ z := by
          rintro rfl
          rw [charsCmp_swap] at h2
          rw [h1] at h2
          exact absurd h2 (by decide)
        rw [if_neg hxz]
        exact charsCmp_lt_trans h1 h2

theorem firstDiffCmp_eq_getD : ∀ (xs ys : List (List Char)),
    commonLen xs ys < xs.length → commonLen xs ys < ys.length →
    firstDiffCmp xs ys =
      charsCmp (xs.getD (commonLen xs ys) []) (ys.getD (commonLen xs ys) [])
  | [], _, h1, _ => by simp [commonLen] at h1
  | _ :: _, [], _, h2 => by simp [commonLen] at h2
  | x :: xs, y :: ys, h1, h2 => by
    rcases eq_or_ne x y with rfl | hne
    · have hc : commonLen (x :: xs) (x :: ys) = commonLen xs ys + 1 := by
        simp [commonLen]
      rw [hc] at h1 h2 ⊢
      simp only [List.length_cons] at h1 h2
      have ih := firstDiffCmp_eq_getD xs ys (by omega) (by omega)
      simp only [firstDiffCmp, if_pos rfl, List.getD_cons_succ]
      exact ih
    · have hc : commonLen (x :: xs) (y :: ys) = 0 := by
        simp [commonLen, hne]
      rw [hc]
      simp only [firstDiffCmp, if_neg hne, List.getD_cons_zero]

/-! ### Characterisation of the hierarchical comparator -/

theorem getD_commonLen_ne : ∀ (xs ys : List (List Char)),
    commonLen xs ys < xs.length → commonLen xs ys < ys.length →
    xs.getD (commonLen xs ys) [] ≠ ys.getD (commonLen xs ys) []
  | [], _, h1, _ => by simp [commonLen] at h1
  | _ :: _, [], _, h2 => by simp [commonLen] at h2
  | x :: xs, y :: ys, h1, h2 => by
    rcases eq_or_ne x y with rfl | hne
    · have hc : commonLen (x :: xs) (x :: ys) = commonLen xs ys + 1 := by simp [commonLen]
      rw [hc] at h1 h2 ⊢
      simp only [List.length_cons] at h1 h2
      simp only [List.getD_cons_succ]
      exact getD_commonLen_ne xs ys (by omega) (by omega)
    · have hc : commonLen (x :: xs) (y :: ys) = 0 := by simp [commonLen, hne]
      rw [hc]
      simpa using hne

theorem commonLen_self (xs : List (List Char)) : commonLen xs xs = xs.length := by
  have h := commonLen_append_self xs []
  rwa [List.append_nil] at h

theorem segs_ne_nil (p : String) : segs p ≠ [] := splitDot_ne_nil p.data

theorem segs_injective {p q : String} (h : segs p = segs q) : p = q :=
  String.ext (splitDot_injective h)

theorem strCmp_eq_iff {a b : String} : strCmp a b = .eq ↔ a = b := by
  unfold strCmp
  rw [charsCmp_eq_iff]
  exact ⟨fun h => String.ext h, fun h => h ▸ rfl⟩

/-- Unfolds `hierarchical_cmp` into a cascade of conditionals. -/
theorem hierarchical_cmp_eq_ite (a b : String) :
    hierarchical_cmp a b =
      if 0 < commonLen (segs a) (segs b) then
        if commonLen (segs a) (segs b) = (segs a).length ∧
            (segs a).length < (segs b).length then .lt
        else if commonLen (segs a) (segs b) = (segs b).length ∧
            (segs b).length < (segs a).length then .gt
        else if (segs a).length < (segs b).length then .lt
        else if (segs b).length < (segs a).length then .gt
        else if commonLen (segs a) (segs b) < min (segs a).length (segs b).length then
          charsCmp ((segs a).getD (commonLen (segs a) (segs b)) [])
            ((segs b).getD (commonLen (segs a) (segs b)) [])
        else strCmp a b
      else strCmp a b := by
  simp only [hierarchical_cmp, natCmp]
  split_ifs <;> first | rfl | (exfalso; omega)

/-- Head segment of a path. -/
def hd0 (p : String) : List Char := (segs p).headD []

theorem common_pos_iff_hd0 (a b : String) :
    0 < commonLen (segs a) (segs b) ↔ hd0 a = hd0 b := by
  rcases hsa : segs a with _ | ⟨x, xs⟩
  · exact absurd hsa (segs_ne_nil a)
  · rcases hsb : segs b with _ | ⟨y, ys⟩
    · exact absurd hsb (segs_ne_nil b)
    · rw [commonLen_pos_iff_heads_eq]
      unfold hd0
      rw [hsa, hsb]
      simp

theorem hcmp_of_hd0_ne (a b : String) (h : hd0 a ≠ hd0 b) :
    hierarchical_cmp a b = strCmp a b := by
  rw [hierarchical_cmp_eq_ite,
    if_neg (fun hp => h ((common_pos_iff_hd0 a b).mp hp))]

theorem hcmp_lt_iff_of_hd0_eq (a b : String) (h : hd0 a = hd0 b) :
    hierarchical_cmp a b = .lt ↔
      (segs a).length < (segs b).length ∨
      ((segs a).length = (segs b).length ∧ firstDiffCmp (segs a) (segs b) = .lt) := by
  have hpos := (common_pos_iff_hd0 a b).mpr h
  have hc1 := commonLen_le_left (segs a) (segs b)
  have hc2 := commonLen_le_right (segs a) (segs b)
  rw [hierarchical_cmp_eq_ite, if_pos hpos]
  split_ifs with h1 h2 h3 h4 h5
  · exact ⟨fun _ => Or.inl h1.2, fun _ => rfl⟩
  · constructor
    · intro hg; exact absurd hg (by decide)
    · rintro (hlt | ⟨heq, -⟩) <;> (exfalso; omega)
  · exact ⟨fun _ => Or.inl h3, fun _ => rfl⟩
  · constructor
    · intro hg; exact absurd hg (by decide)
    · rintro (hlt | ⟨heq, -⟩) <;> (exfalso; omega)
  · have heq : (segs a).length = (segs b).length := by omega
    rw [← firstDiffCmp_eq_getD (segs a) (segs b) (by omega) (by omega)]
    constructor
    · intro hfd; exact Or.inr ⟨heq, hfd⟩
    · rintro (hlt | ⟨-, hfd⟩)
      · exact absurd hlt h3
      · exact hfd
  · have heq : (segs a).length = (segs b).length := by omega
    have hsa : segs a = segs b := eq_of_commonLen_lengths _ _ (by omega) heq
    have hab : a = b := segs_injective hsa
    subst hab
    constructor
    · intro hs
      rw [strCmp_eq_iff.mpr rfl] at hs
      exact absurd hs (by decide)
    · rintro (hlt | ⟨-, hfd⟩)
      · exact absurd hlt h3
      · rw [(firstDiffCmp_eq_iff _ _ rfl).mpr rfl] at hfd
        exact absurd hfd (by decide)

theorem hierarchical_cmp_antisym (a b : String) :
    hierarchical_cmp b a = (hierarchical_cmp a b).swap := by
  have hc1 := commonLen_le_left (segs a) (segs b)
  have hc2 := commonLen_le_right (segs a) (segs b)
  rw [hierarchical_cmp_eq_ite, hierarchical_cmp_eq_ite,
    commonLen_symm (segs b) (segs a)]
  split_ifs <;>
    first
      | rfl
      | (exfalso; omega)
      | (exact charsCmp_swap _ _)

theorem hierarchical_cmp_eq_iff (a b : String) :
    hierarchical_cmp a b = .eq ↔ a = b := by
  have hc1 := commonLen_le_left (segs a) (segs b)
  have hc2 := commonLen_le_right (segs a) (segs b)
  rw [hierarchical_cmp_eq_ite]
  split_ifs with h0 h1 h2 h3 h4 h5
  · constructor
    · intro hc; exact absurd hc (by decide)
    · rintro rfl; exfalso; omega
  · constructor
    · intro hc; exact absurd hc (by decide)
    · rintro rfl; exfalso; omega
  · constructor
    · intro hc; exact absurd hc (by decide)
    · rintro rfl; exfalso; omega
  · constructor
    · intro hc; exact absurd hc (by decide)
    · rintro rfl; exfalso; omega
  · constructor
    · intro hc
      exact absurd (charsCmp_eq_iff.mp hc)
        (getD_commonLen_ne (segs a) (segs b) (by omega) (by omega))
    · rintro rfl
      exfalso
      rw [commonLen_self] at h5
      omega
  · exact strCmp_eq_iff
  · exact strCmp_eq_iff

theorem data_eq_joinDot_segs (p : String) : p.data = joinDot (segs p) :=
  (joinDot_splitDot p.data).symm

theorem data_of_segs_single {x : String} {h : List Char} (hseg : segs x = [h]) :
    x.data = h := by
  have hx := data_eq_joinDot_segs x
  rw [hseg] at hx
  exact hx

theorem data_of_segs_cons {x : String} {h : List Char} {t : List (List Char)}
    (hseg : segs x = h :: t) (ht : t ≠ []) : x.data = h ++ '.' :: joinDot t := by
  have hx := data_eq_joinDot_segs x
  rw [hseg] at hx
  rcases t with _ | ⟨r, rs⟩
  · exact absurd rfl ht
  · exact hx

theorem noDot_hd0 (p : String) : '.' ∉ hd0 p := by
  rcases hs : segs p with _ | ⟨x, xs⟩
  · exact absurd hs (segs_ne_nil p)
  · have hmem : x ∈ splitDot p.data := by
      rw [show splitDot p.data = x :: xs from hs]
      exact List.mem_cons_self x xs
    have := noDot_of_mem_splitDot p.data x hmem
    unfold hd0
    rw [hs]
    simpa using this

theorem hd0_of_data_append {c : String} {h z : List Char}
    (hnd : '.' ∉ h) (hdata : c.data = h ++ '.' :: z) : hd0 c = h := by
  have hsc : segs c = h :: splitDot z := by
    unfold segs
    rw [hdata, splitDot_append, splitDot_eq_single h hnd]
    rfl
  unfold hd0
  rw [hsc]
  rfl

theorem segs_cons_of_segs (p : String) : segs p = hd0 p :: (segs p).tail := by
  rcases hs : segs p with _ | ⟨x, xs⟩
  · exact absurd hs (segs_ne_nil p)
  · unfold hd0
    rw [hs]
    rfl

/-- If two paths share their head segment but the hierarchical order and the
plain string order disagree on them, then both paths have at least two
segments (so both start with `head ++ '.'`). -/
theorem disagreement_structure {x y : String}
    (hh : hd0 x = hd0 y)
    (hhc : hierarchical_cmp y x = .lt)
    (hs : charsCmp x.data y.data = .lt) :
    ∃ tx ty, segs x = hd0 x :: tx ∧ tx ≠ [] ∧ segs y = hd0 x :: ty ∧ ty ≠ [] := by
  have hsx := segs_cons_of_segs x
  have hsy := segs_cons_of_segs y
  rw [← hh] at hsy
  rcases htx : (segs x).tail with _ | ⟨rx, rxs⟩ <;> rcases hty : (segs y).tail with _ | ⟨ry, rys⟩
  · -- both single-segment: x = y, contradicting strict string inequality
    rw [htx] at hsx
    rw [hty] at hsy
    have hxy : x = y := segs_injective (hsx.trans hsy.symm)
    subst hxy
    rw [charsCmp_eq_iff.mpr rfl] at hs
    exact absurd hs (by decide)
  · -- x single-segment, y longer: then y has strictly more segments than x,
    -- so hierarchical_cmp y x cannot be .lt
    rw [htx] at hsx
    rw [hty] at hsy
    have hlx : (segs x).length = 1 := by rw [hsx]; rfl
    have hly : (segs y).length = 2 + rys.length := by rw [hsy]; simp; omega
    have := (hcmp_lt_iff_of_hd0_eq y x hh.symm).mp hhc
    rcases this with hlen | ⟨heq, -⟩ <;> omega
  · -- x longer, y single-segment: then y.data is a strict prefix of x.data,
    -- so charsCmp x.data y.data = .gt, contradicting hs
    rw [htx] at hsx
    rw [hty] at hsy
    have hdx : x.data = hd0 x ++ '.' :: joinDot (rx :: rxs) := data_of_segs_cons hsx (by simp)
    have hdy : y.data = hd0 x := data_of_segs_single hsy
    rw [hdx, hdy] at hs
    have : charsCmp (hd0 x) (hd0 x ++ '.' :: joinDot (rx :: rxs)) = .lt :=
      charsCmp_self_append_lt _ _ (by simp)
    rw [charsCmp_swap] at hs
    rw [this] at hs
    exact absurd hs (by decide)
  · rw [htx] at hsx
    rw [hty] at hsy
    exact ⟨rx :: rxs, ry :: rys, hsx, by simp, hsy, by simp⟩

theorem hierarchical_cmp_lt_trans {a b c : String}
    (h1 : hierarchical_cmp a b = .lt) (h2 : hierarchical_cmp b c = .lt) :
    hierarchical_cmp a c = .lt := by
  by_cases hab : hd0 a = hd0 b
  · by_cases hbc : hd0 b = hd0 c
    · -- all three paths share their head segment
      have hac : hd0 a = hd0 c := hab.trans hbc
      rw [hcmp_lt_iff_of_hd0_eq a b hab] at h1
      rw [hcmp_lt_iff_of_hd0_eq b c hbc] at h2
      rw [hcmp_lt_iff_of_hd0_eq a c hac]
      rcases h1 with hl1 | ⟨he1, hf1⟩ <;> rcases h2 with hl2 | ⟨he2, hf2⟩
      · exact Or.inl (Nat.lt_trans hl1 hl2)
      · exact Or.inl (he2 ▸ hl1)
      · exact Or.inl (he1 ▸ hl2)
      · exact Or.inr ⟨he1.trans he2, firstDiffCmp_lt_trans hf1 hf2⟩
    · -- a and b share their head segment, c does not
      rw [hcmp_of_hd0_ne b c hbc] at h2
      have hac : hd0 a ≠ hd0 c := fun h => hbc (hab.symm.trans h)
      rw [hcmp_of_hd0_ne a c hac]
      show charsCmp a.data c.data = .lt
      rcases hv : charsCmp a.data c.data with _ | _ | _
      · rfl
      · exact absurd (by rw [String.ext (charsCmp_eq_iff.mp hv)]) hac
      · exfalso
        have hca : charsCmp c.data a.data = .lt := by
          rw [charsCmp_swap, hv]; rfl
        rcases hvab : charsCmp a.data b.data with _ | _ | _
        · rw [charsCmp_lt_trans hvab h2] at hv
          exact absurd hv (by decide)
        · have he : a = b := String.ext (charsCmp_eq_iff.mp hvab)
          rw [he, (hierarchical_cmp_eq_iff b b).mpr rfl] at h1
          exact absurd h1 (by decide)
        · have hba : charsCmp b.data a.data = .lt := by
            rw [charsCmp_swap, hvab]; rfl
          obtain ⟨tb, ta, hsb, htb, hsa, hta⟩ :=
            disagreement_structure (x := b) (y := a) hab.symm h1 hba
          have hdb : b.data = (hd0 b ++ ['.']) ++ joinDot tb := by
            rw [data_of_segs_cons hsb htb]; simp
          have hda : a.data = (hd0 b ++ ['.']) ++ joinDot ta := by
            rw [data_of_segs_cons hsa hta]; simp
          have h2' : charsCmp b.data c.data = .lt := h2
          rw [hdb] at h2'
          rw [hda] at hca
          obtain ⟨z, hz⟩ := charsCmp_between (hd0 b ++ ['.']) h2' hca
          have hcz : c.data = hd0 b ++ '.' :: z := by rw [hz]; simp
          exact hbc (hd0_of_data_append (noDot_hd0 b) hcz).symm
  · by_cases hbc : hd0 b = hd0 c
    · -- b and c share their head segment, a does not
      rw [hcmp_of_hd0_ne a b hab] at h1
      have hac : hd0 a ≠ hd0 c := fun h => hab (h.trans hbc.symm)
      rw [hcmp_of_hd0_ne a c hac]
      show charsCmp a.data c.data = .lt
      rcases hv : charsCmp a.data c.data with _ | _ | _
      · rfl
      · exact absurd (by rw [String.ext (charsCmp_eq_iff.mp hv)]) hac
      · exfalso
        have hca : charsCmp c.data a.data = .lt := by
          rw [charsCmp_swap, hv]; rfl
        rcases hvbc : charsCmp b.data c.data with _ | _ | _
        · rw [charsCmp_lt_trans h1 hvbc] at hv
          exact absurd hv (by decide)
        · have he : b = c := String.ext (charsCmp_eq_iff.mp hvbc)
          rw [he, (hierarchical_cmp_eq_iff c c).mpr rfl] at h2
          exact absurd h2 (by decide)
        · have hcb : charsCmp c.data b.data = .lt := by
            rw [charsCmp_swap, hvbc]; rfl
          obtain ⟨tc, tb, hsc, htc, hsb, htb⟩ :=
            disagreement_structure (x := c) (y := b) hbc.symm h2 hcb
          have hdc : c.data = (hd0 c ++ ['.']) ++ joinDot tc := by
            rw [data_of_segs_cons hsc htc]; simp
          have hdb : b.data = (hd0 c ++ ['.']) ++ joinDot tb := by
            rw [data_of_segs_cons hsb htb]; simp
          have h1' : charsCmp a.data b.data = .lt := h1
          rw [hdc] at hca
          rw [hdb] at h1'
          obtain ⟨z, hz⟩ := charsCmp_between (hd0 c ++ ['.']) hca h1'
          have haz : a.data = hd0 c ++ '.' :: z := by rw [hz]; simp
          exact hac (hd0_of_data_append (noDot_hd0 c) haz)
    · by_cases hac : hd0 a = hd0 c
      · -- a and c share their head segment, b does not
        rw [hcmp_of_hd0_ne a b hab] at h1
        rw [hcmp_of_hd0_ne b c hbc] at h2
        have hstr : charsCmp a.data c.data = .lt := charsCmp_lt_trans h1 h2
        rcases hv : hierarchical_cmp a c with _ | _ | _
        · rfl
        · exfalso
          have he : a = c := (hierarchical_cmp_eq_iff a c).mp hv
          subst he
          have hx := charsCmp_lt_trans (show charsCmp a.data b.data = .lt from h1)
            (show charsCmp b.data a.data = .lt from h2)
          rw [charsCmp_eq_iff.mpr rfl] at hx
          exact absurd hx (by decide)
        · exfalso
          have hca : hierarchical_cmp c a = .lt := by
            rw [hierarchical_cmp_antisym a c, hv]; decide
          obtain ⟨ta, tc, hsa, hta, hsc, htc⟩ :=
            disagreement_structure (x := a) (y := c) hac hca hstr
          have hda : a.data = (hd0 a ++ ['.']) ++ joinDot ta := by
            rw [data_of_segs_cons hsa hta]; simp
          have hdc : c.data = (hd0 a ++ ['.']) ++ joinDot tc := by
            rw [data_of_segs_cons hsc htc]; simp
          have h1' : charsCmp a.data b.data = .lt := h1
          have h2' : charsCmp b.data c.data = .lt := h2
          rw [hda] at h1'
          rw [hdc] at h2'
          obtain ⟨z, hz⟩ := charsCmp_between (hd0 a ++ ['.']) h1' h2'
          have hbz : b.data = hd0 a ++ '.' :: z := by rw [hz]; simp
          exact hab (hd0_of_data_append (noDot_hd0 a) hbz).symm
      · -- all three head segments pairwise distinct
        rw [hcmp_of_hd0_ne a b hab] at h1
        rw [hcmp_of_hd0_ne b c hbc] at h2
        rw [hcmp_of_hd0_ne a c hac]
        exact charsCmp_lt_trans h1 h2

/-- C1: `ConfigKey::hierarchical_cmp` (the key order of the diff result maps)
is a strict total order on path strings: `Equal` holds exactly on identical
paths, comparing `b` with `a` gives the inverse of comparing `a` with `b`
(hence for distinct paths exactly one of `a < b` and `b < a` holds), and the
strict order is transitive over any three paths. -/
theorem hierarchical_cmp_strict_total_order (a b c : String) :
    (hierarchical_cmp a b = .eq ↔ a = b) ∧
    (hierarchical_cmp b a = (hierarchical_cmp a b).swap) ∧
    (a ≠ b → (hierarchical_cmp a b = .lt ↔ ¬hierarchical_cmp b a = .lt)) ∧
    (hierarchical_cmp a b = .lt → hierarchical_cmp b c = .lt →
      hierarchical_cmp a c = .lt) := by
  refine ⟨hierarchical_cmp_eq_iff a b, hierarchical_cmp_antisym a b, ?_,
    fun h1 h2 => hierarchical_cmp_lt_trans h1 h2⟩
  intro hne
  constructor
  · intro hlt
    rw [hierarchical_cmp_antisym a b, hlt]
    decide
  · intro hn
    rcases hv : hierarchical_cmp a b with _ | _ | _
    · rfl
    · exact absurd ((hierarchical_cmp_eq_iff a b).mp hv) hne
    · exfalso
      have hba := hierarchical_cmp_antisym a b
      rw [hv] at hba
      exact hn (hba.trans (by decide))

theorem hierarchical_cmp_strict_total_order_witness :
    (hierarchical_cmp "db" "db.host" = .lt ↔
      ¬hierarchical_cmp "db.host" "db" = .lt) ∧
    hierarchical_cmp "db" "db.port" = .lt :=
  ⟨(hierarchical_cmp_strict_total_order "db" "db.host" "x").2.2.1 (by decide),
   (hierarchical_cmp_strict_total_order "db" "db.host" "db.port").2.2.2
     (by decide) (by decide)⟩

/-- C5: the comparator follows the specified algorithm: if the common leading
segment run is empty the result is plain lexical string comparison; if one
segment list is a proper prefix of the other the shorter (ancestor) path
sorts first, and in particular `a` always sorts before `a ++ "." ++ b`;
otherwise the path with fewer segments sorts first, and at equal segment
counts the first differing segment is compared lexically. -/
theorem hierarchical_cmp_spec_algorithm (a b : String) :
    (commonLen (segs a) (segs b) = 0 → hierarchical_cmp a b = strCmp a b) ∧
    (commonLen (segs a) (segs b) = (segs a).length →
      (segs a).length < (segs b).length → hierarchical_cmp a b = .lt) ∧
    (hierarchical_cmp a (a ++ "." ++ b) = .lt) ∧
    (0 < commonLen (segs a) (segs b) →
      commonLen (segs a) (segs b) < (segs a).length →
      commonLen (segs a) (segs b) < (segs b).length →
      ((segs a).length < (segs b).length → hierarchical_cmp a b = .lt) ∧
      ((segs b).length < (segs a).length → hierarchical_cmp a b = .gt) ∧
      ((segs a).length = (segs b).length →
        hierarchical_cmp a b =
          charsCmp ((segs a).getD (commonLen (segs a) (segs b)) [])
            ((segs b).getD (commonLen (segs a) (segs b)) []))) := by
  refine ⟨?_, ?_, ?_, ?_⟩
  · intro hz
    rw [hierarchical_cmp_eq_ite, hz]
    simp
  · intro hc hlen
    have hpos : 0 < commonLen (segs a) (segs b) := by
      rw [hc]
      exact List.length_pos.mpr (segs_ne_nil a)
    rw [hierarchical_cmp_eq_ite, if_pos hpos, if_pos ⟨hc, hlen⟩]
  · have hdata : (a ++ "." ++ b).data = a.data ++ '.' :: b.data := by
      rw [String.data_append, String.data_append]
      simp [show ("." : String).data = ['.'] from rfl]
    have hsegs : segs (a ++ "." ++ b) = segs a ++ segs b := by
      unfold segs
      rw [hdata, splitDot_append]
    have hlb : 0 < (segs b).length := List.length_pos.mpr (segs_ne_nil b)
    have hla : 0 < (segs a).length := List.length_pos.mpr (segs_ne_nil a)
    rw [hierarchical_cmp_eq_ite, hsegs, commonLen_append_self]
    have hlen : (segs a).length < (segs a ++ segs b).length := by
      rw [List.length_append]
      omega
    rw [if_pos hla, if_pos ⟨rfl, hlen⟩]
  · intro hpos hca hcb
    refine ⟨?_, ?_, ?_⟩
    · intro hlen
      rw [hierarchical_cmp_eq_ite]
      split_ifs <;> first | rfl | (exfalso; omega)
    · intro hlen
      rw [hierarchical_cmp_eq_ite]
      split_ifs <;> first | rfl | (exfalso; omega)
    · intro hlen
      rw [hierarchical_cmp_eq_ite]
      split_ifs <;> first | rfl | (exfalso; omega)

theorem hierarchical_cmp_spec_algorithm_witness :
    hierarchical_cmp "a.x" "b" = strCmp "a.x" "b" ∧
    hierarchical_cmp "db" "db.host" = .lt ∧
    hierarchical_cmp "db" "db.host" = .lt ∧
    hierarchical_cmp "db.host" "db.port" =
      charsCmp ((segs "db.host").getD 1 []) ((segs "db.port").getD 1 []) := by
  refine ⟨?_, ?_, ?_, ?_⟩
  · exact (hierarchical_cmp_spec_algorithm "a.x" "b").1 (by decide)
  · exact (hierarchical_cmp_spec_algorithm "db" "db.host").2.1 (by decide) (by decide)
  · exact (hierarchical_cmp_spec_algorithm "db" "host").2.2.1
  · have h := ((hierarchical_cmp_spec_algorithm "db.host" "db.port").2.2.2
      (by decide) (by decide) (by decide)).2.2 (by decide)
    have hc : commonLen (segs "db.host") (segs "db.port") = 1 := by decide
    rw [hc] at h
    exact h

/-! ### The flattener -/

/-- Embeds `HashMap::insert` on the model of `HashMap<String, _>` as an
association list with distinct keys: an existing binding of the key is
replaced in place, otherwise the binding is appended. -/
def hinsert {α : Type} : List (String × α) → String → α → List (String × α)
  | [], k, v => [(k, v)]
  | (k', v') :: rest, k, v =>
    if k' = k then (k, v) :: rest else (k', v') :: hinsert rest k v

/-- Embeds `HashMap::extend`: inserts every binding of the list in order. -/
def hextend {α : Type} (m l : List (String × α)) : List (String × α) :=
  l.foldl (fun acc p => hinsert acc p.1 p.2) m

/-- Embeds `HashMap::get`. -/
def hfind {α : Type} : List (String × α) → String → Option α
  | [], _ => none
  | (k', v') :: rest, k => if k' = k then some v' else hfind rest k

/-- Key list of a map (the `keys()` iterator). -/
def keysOf {α : Type} (m : List (String × α)) : List String := m.map Prod.fst

mutual
/-- Embeds `extract_key_vals` from src/main.rs: flattens a value to a map
from dotted path to leaf value.  A mapping is walked entry by entry
(`extractLoop`); a non-mapping root is recorded only under a non-empty
prefix. -/
def extract_key_vals : Value → String → List (String × Value)
  | .mapping m, pfx => extractLoop m pfx []
  | v, pfx => if pfx = "" then [] else [(pfx, v)]

/-- The `for (k, v) in map` loop of `extract_key_vals`: entries with
non-string keys are skipped; the built path appends `'.'` and the key to a
non-empty prefix (just the key otherwise); mapping children are flattened
recursively and merged via `extend`, other children are inserted as leaves. -/
def extractLoop : List (Value × Value) → String → List (String × Value) →
    List (String × Value)
  | [], _, acc => acc
  | (k, v) :: rest, pfx, acc =>
    match asStr k with
    | none => extractLoop rest pfx acc
    | some key_str =>
      let np := if pfx = "" then key_str else pfx ++ "." ++ key_str
      match v with
      | .mapping _ => extractLoop rest pfx (hextend acc (extract_key_vals v np))
      | _ => extractLoop rest pfx (hinsert acc np v)
end

example :
    extract_key_vals (.mapping [(.str "db",
      .mapping [(.str "host", .str "x"), (.str "port", .number 5432)])]) "" =
    [("db.host", Value.str "x"), ("db.port", Value.number 5432)] := rfl

/-! ### Facts about flattening (C2, C10) -/

theorem extract_key_vals_ne_mapping (v : Value) (h : isMapping v = false)
    (pfx : String) :
    extract_key_vals v pfx = if pfx = "" then [] else [(pfx, v)] := by
  cases v
  case mapping => simp [isMapping] at h
  all_goals rfl

theorem extract_key_vals_mapping (m : List (Value × Value)) (pfx : String) :
    extract_key_vals (.mapping m) pfx = extractLoop m pfx [] := rfl

theorem extractLoop_nil (pfx : String) (acc : List (String × Value)) :
    extractLoop [] pfx acc = acc := rfl

theorem extractLoop_cons_none {k : Value} {v : Value} {rest : List (Value × Value)}
    {pfx : String} {acc : List (String × Value)} (hk : asStr k = none) :
    extractLoop ((k, v) :: rest) pfx acc = extractLoop rest pfx acc := by
  simp [extractLoop, hk]

theorem extractLoop_cons_mapping {k : Value} {rest : List (Value × Value)}
    {pfx : String} {acc : List (String × Value)} (ks : String)
    (hk : asStr k = some ks) (m' : List (Value × Value)) :
    extractLoop ((k, .mapping m') :: rest) pfx acc =
      extractLoop rest pfx (hextend acc (extract_key_vals (.mapping m')
        (if pfx = "" then ks else pfx ++ "." ++ ks))) := by
  simp [extractLoop, hk]

theorem extractLoop_cons_leaf {k v : Value} {rest : List (Value × Value)}
    {pfx : String} {acc : List (String × Value)} (ks : String)
    (hk : asStr k = some ks) (hv : isMapping v = false) :
    extractLoop ((k, v) :: rest) pfx acc =
      extractLoop rest pfx
        (hinsert acc (if pfx = "" then ks else pfx ++ "." ++ ks) v) := by
  cases v
  case mapping => simp [isMapping] at hv
  all_goals simp [extractLoop, hk]

theorem value_eq_mapping_of_isMapping {v : Value} (hv : isMapping v = true) :
    ∃ m', v = Value.mapping m' := by
  cases v <;> first | (exact ⟨_, rfl⟩) | simp [isMapping] at hv

theorem strAppend_dot_ne_empty (a b : String) : a ++ "." ++ b ≠ "" := by
  intro h
  have hd := congrArg String.data h
  rw [String.data_append, String.data_append] at hd
  simp [show ("." : String).data = ['.'] from rfl] at hd

theorem mem_hinsert {α : Type} : ∀ (m : List (String × α)) (k : String) (v : α)
    (p : String × α), p ∈ hinsert m k v → p ∈ m ∨ p = (k, v)
  | [], k, v, p => by simp [hinsert]
  | (k', v') :: rest, k, v, p => by
    simp only [hinsert]
    split_ifs with h
    · intro hp
      rcases List.mem_cons.mp hp with rfl | hmem
      · exact Or.inr rfl
      · exact Or.inl (List.mem_cons_of_mem _ hmem)
    · intro hp
      rcases List.mem_cons.mp hp with rfl | hmem
      · exact Or.inl (List.mem_cons_self _ _)
      · rcases mem_hinsert rest k v p hmem with h1 | h2
        · exact Or.inl (List.mem_cons_of_mem _ h1)
        · exact Or.inr h2

theorem mem_hextend {α : Type} : ∀ (l m : List (String × α)) (p : String × α),
    p ∈ hextend m l → p ∈ m ∨ p ∈ l
  | [], _, _ => fun h => Or.inl h
  | q :: rest, m, p => fun h => by
    have he : hextend m (q :: rest) = hextend (hinsert m q.1 q.2) rest := rfl
    rw [he] at h
    rcases mem_hextend rest (hinsert m q.1 q.2) p h with h1 | h2
    · rcases mem_hinsert m q.1 q.2 p h1 with ha | hb
      · exact Or.inl ha
      · subst hb
        exact Or.inr (by rw [Prod.mk.eta]; exact List.mem_cons_self q rest)
    · exact Or.inr (List.mem_cons_of_mem q h2)

theorem extractLoop_keys_ne_empty :
    ∀ (entries : List (Value × Value)) (pfx : String)
      (acc : List (String × Value)), pfx ≠ "" → (∀ p ∈ acc, p.1 ≠ "") →
      ∀ p ∈ extractLoop entries pfx acc, p.1 ≠ ""
  | [], pfx, acc, _, hacc => fun p hmem => hacc p hmem
  | (k, v) :: rest, pfx, acc, hp, hacc => fun p hmem => by
    rcases hk : asStr k with _ | ks
    · rw [extractLoop_cons_none hk] at hmem
      exact extractLoop_keys_ne_empty rest pfx acc hp hacc p hmem
    · have hnp : (if pfx = "" then ks else pfx ++ "." ++ ks) ≠ "" := by
        rw [if_neg hp]
        exact strAppend_dot_ne_empty pfx ks
      rcases hv : isMapping v with _ | _
      · rw [extractLoop_cons_leaf ks hk hv] at hmem
        refine extractLoop_keys_ne_empty rest pfx _ hp ?_ p hmem
        intro q hq
        rcases mem_hinsert _ _ _ q hq with h1 | h2
        · exact hacc q h1
        · rw [h2]
          exact hnp
      · obtain ⟨m', rfl⟩ := value_eq_mapping_of_isMapping hv
        rw [extractLoop_cons_mapping ks hk m'] at hmem
        refine extractLoop_keys_ne_empty rest pfx _ hp ?_ p hmem
        intro q hq
        rcases mem_hextend _ _ q hq with h1 | h2
        · exact hacc q h1
        · rw [extract_key_vals_mapping] at h2
          exact extractLoop_keys_ne_empty m' _ [] hnp (by simp) q h2
  termination_by entries _ _ _ _ => sizeOf entries

theorem extractLoop_vals_not_mapping :
    ∀ (entries : List (Value × Value)) (pfx : String)
      (acc : List (String × Value)), (∀ p ∈ acc, isMapping p.2 = false) →
      ∀ p ∈ extractLoop entries pfx acc, isMapping p.2 = false
  | [], _, acc, hacc => fun p hmem => hacc p hmem
  | (k, v) :: rest, pfx, acc, hacc => fun p hmem => by
    rcases hk : asStr k with _ | ks
    · rw [extractLoop_cons_none hk] at hmem
      exact extractLoop_vals_not_mapping rest pfx acc hacc p hmem
    · rcases hv : isMapping v with _ | _
      · rw [extractLoop_cons_leaf ks hk hv] at hmem
        refine extractLoop_vals_not_mapping rest pfx _ ?_ p hmem
        intro q hq
        rcases mem_hinsert _ _ _ q hq with h1 | h2
        · exact hacc q h1
        · rw [h2]
          exact hv
      · obtain ⟨m', rfl⟩ := value_eq_mapping_of_isMapping hv
        rw [extractLoop_cons_mapping ks hk m'] at hmem
        refine extractLoop_vals_not_mapping rest pfx _ ?_ p hmem
        intro q hq
        rcases mem_hextend _ _ q hq with h1 | h2
        · exact hacc q h1
        · rw [extract_key_vals_mapping] at h2
          exact extractLoop_vals_not_mapping m' _ [] (by simp) q h2
  termination_by entries _ _ _ => sizeOf entries

/-- Invariant for the amended C2: no top-level string key of the document is
the empty string. -/
def noEmptyTopKey : Value → Bool
  | .mapping m => m.all (fun p =>
      match asStr p.1 with
      | some s => !(s == "")
      | none => true)
  | _ => true

theorem extractLoop_top_keys_ne_empty :
    ∀ (entries : List (Value × Value)) (acc : List (String × Value)),
      (∀ p ∈ entries, ∀ s, asStr p.1 = some s → s ≠ "") →
      (∀ p ∈ acc, p.1 ≠ "") →
      ∀ p ∈ extractLoop entries "" acc, p.1 ≠ ""
  | [], acc, _, hacc => fun p hmem => hacc p hmem
  | (k, v) :: rest, acc, hkeys, hacc => fun p hmem => by
    rcases hk : asStr k with _ | ks
    · rw [extractLoop_cons_none hk] at hmem
      exact extractLoop_top_keys_ne_empty rest acc
        (fun q hq => hkeys q (List.mem_cons_of_mem _ hq)) hacc p hmem
    · have hks : ks ≠ "" := hkeys (k, v) (List.mem_cons_self _ _) ks hk
      have hnp : (if ("" : String) = "" then ks else "" ++ "." ++ ks) = ks := by
        simp
      rcases hv : isMapping v with _ | _
      · rw [extractLoop_cons_leaf ks hk hv, hnp] at hmem
        refine extractLoop_top_keys_ne_empty rest _
          (fun q hq => hkeys q (List.mem_cons_of_mem _ hq)) ?_ p hmem
        intro q hq
        rcases mem_hinsert _ _ _ q hq with h1 | h2
        · exact hacc q h1
        · rw [h2]
          exact hks
      · obtain ⟨m', rfl⟩ := value_eq_mapping_of_isMapping hv
        rw [extractLoop_cons_mapping ks hk m', hnp] at hmem
        refine extractLoop_top_keys_ne_empty rest _
          (fun q hq => hkeys q (List.mem_cons_of_mem _ hq)) ?_ p hmem
        intro q hq
        rcases mem_hextend _ _ q hq with h1 | h2
        · exact hacc q h1
        · rw [extract_key_vals_mapping] at h2
          exact extractLoop_keys_ne_empty m' ks [] hks (by simp) q h2

/-- C2 counterexample: flattening the document whose root mapping has the
empty string as a key (here the document is the mapping with the single
entry "" ↦ 5) from the empty prefix yields an entry whose path key is the
empty string, refuting the claim that `extract_key_vals D ""` never contains
an empty path key. -/
theorem extract_empty_path_counterexample :
    extract_key_vals (.mapping [(.str "", .number 5)]) "" =
      [("", Value.number 5)] := rfl

/-- C2 (amended): flattening from the empty prefix never records a Mapping
value; a non-mapping root yields no entries; and no entry has an empty path
key provided no top-level string key of the root mapping is the empty string
(an empty top-level key produces the empty path, per the counterexample). -/
theorem extract_no_empty_path_no_mapping_value (D : Value) (p : String × Value) :
    (p ∈ extract_key_vals D "" → isMapping p.2 = false) ∧
    (isMapping D = false → extract_key_vals D "" = []) ∧
    (noEmptyTopKey D = true → p ∈ extract_key_vals D "" → p.1 ≠ "") := by
  refine ⟨?_, ?_, ?_⟩
  · intro hmem
    rcases hD : isMapping D with _ | _
    · rw [extract_key_vals_ne_mapping D hD, if_pos rfl] at hmem
      exact absurd hmem (List.not_mem_nil p)
    · obtain ⟨m, rfl⟩ := value_eq_mapping_of_isMapping hD
      rw [extract_key_vals_mapping] at hmem
      exact extractLoop_vals_not_mapping m "" [] (by simp) p hmem
  · intro hD
    rw [extract_key_vals_ne_mapping D hD, if_pos rfl]
  · intro hkeys hmem
    rcases hD : isMapping D with _ | _
    · rw [extract_key_vals_ne_mapping D hD, if_pos rfl] at hmem
      exact absurd hmem (List.not_mem_nil p)
    · obtain ⟨m, rfl⟩ := value_eq_mapping_of_isMapping hD
      rw [extract_key_vals_mapping] at hmem
      refine extractLoop_top_keys_ne_empty m [] ?_ (by simp) p hmem
      intro q hq s hs
      simp only [noEmptyTopKey] at hkeys
      have hfq := List.all_eq_true.mp hkeys q hq
      rw [hs] at hfq
      simpa using hfq

theorem extract_no_empty_path_no_mapping_value_witness :
    isMapping (("k", Value.number 7) : String × Value).2 = false ∧
    extract_key_vals (Value.str "x") "" = [] ∧
    (("k", Value.number 7) : String × Value).1 ≠ "" := by
  refine ⟨?_, ?_, ?_⟩
  · exact (extract_no_empty_path_no_mapping_value
      (Value.mapping [(.str "k", .number 7)]) ("k", Value.number 7)).1
      (List.Mem.head _)
  · exact (extract_no_empty_path_no_mapping_value (Value.str "x")
      ("", Value.null)).2.1 rfl
  · exact (extract_no_empty_path_no_mapping_value
      (Value.mapping [(.str "k", .number 7)]) ("k", Value.number 7)).2.2 rfl
      (List.Mem.head _)

/-- C10: in the document whose root mapping binds the literal key "a.b" to 1
and the key "a" to the nested mapping with entry "b" ↦ 2, the two distinct
leaves flatten to the same path string "a.b"; the later-processed nested
leaf overwrites the earlier literal-key leaf in the hash map, so the
flattened map is exactly the single entry ("a.b", 2) and the leaf value 1 is
silently absent from any diff. -/
theorem extract_path_collision :
    extract_key_vals (.mapping [(.str "a.b", .number 1),
      (.str "a", .mapping [(.str "b", .number 2)])]) "" =
      [("a.b", Value.number 2)] := rfl

/-! ### Deep structural equality (serde PartialEq on Value) -/

mutual
/-- Embeds `PartialEq` for `serde_yaml::Value`: equality is variant-wise;
sequences compare element-wise in order; mappings compare by size and
unordered key lookup (`IndexMap` equality); tagged values compare tag and
inner value. -/
def valueEq : Value → Value → Bool
  | .null, .null => true
  | .bool a, .bool b => a == b
  | .number a, .number b => a == b
  | .str a, .str b => a == b
  | .sequence a, .sequence b => seqEq a b
  | .mapping a, .mapping b => a.length == b.length && mapIncl a b
  | .tagged ta va, .tagged tb vb => ta == tb && valueEq va vb
  | _, _ => false
  termination_by a _ => (sizeOf a, 0, 0)

/-- Element-wise equality of two sequences. -/
def seqEq : List Value → List Value → Bool
  | [], [] => true
  | x :: xs, y :: ys => valueEq x y && seqEq xs ys
  | _, _ => false
  termination_by xs _ => (sizeOf xs, 0, 0)

/-- Every entry of the first mapping is found (by key, order-independent) in
the second mapping with an equal value. -/
def mapIncl : List (Value × Value) → List (Value × Value) → Bool
  | [], _ => true
  | (k, v) :: rest, m =>
    (match mapGet k m with
      | some v2 => valueEq v v2
      | none => false) && mapIncl rest m
  termination_by l _ => (sizeOf l, 0, 0)

/-- Embeds `Mapping::get`: the value of the first entry whose key equals
`k`. -/
def mapGet : Value → List (Value × Value) → Option Value
  | _, [] => none
  | k, (k2, v2) :: rest => if valueEq k k2 then some v2 else mapGet k rest
  termination_by k m => (sizeOf k, 1, sizeOf m)
end

/-- Pairwise key distinctness (under `valueEq`, both orientations) of the
entries of a mapping: the `IndexMap` uniqueness invariant. -/
def uniqKeys : List (Value × Value) → Bool
  | [] => true
  | (k, _) :: rest =>
    rest.all (fun p => !valueEq k p.1 && !valueEq p.1 k) && uniqKeys rest

mutual
/-- The well-formedness invariant every parsed `serde_yaml::Value` enjoys by
construction: every mapping in the tree (an `IndexMap`) has pairwise
distinct keys. -/
def wfValue : Value → Bool
  | .mapping m => uniqKeys m && wfEntries m
  | .sequence xs => wfList xs
  | .tagged _ v => wfValue v
  | _ => true

/-- All elements of a list of values are well-formed. -/
def wfList : List Value → Bool
  | [] => true
  | x :: xs => wfValue x && wfList xs

/-- All keys and values of mapping entries are well-formed. -/
def wfEntries : List (Value × Value) → Bool
  | [] => true
  | (k, v) :: rest => wfValue k && wfValue v && wfEntries rest
end

theorem wfEntries_mem : ∀ (l : List (Value × Value)), wfEntries l = true →
    ∀ p ∈ l, wfValue p.1 = true ∧ wfValue p.2 = true
  | [], _, p, hp => absurd hp (List.not_mem_nil p)
  | (k, v) :: rest, h, p, hp => by
    simp only [wfEntries, Bool.and_eq_true] at h
    rcases List.mem_cons.mp hp with rfl | hmem
    · exact ⟨h.1.1, h.1.2⟩
    · exact wfEntries_mem rest h.2 p hmem

theorem uniqKeys_cons {k : Value} {v : Value} {rest : List (Value × Value)}
    (h : uniqKeys ((k, v) :: rest) = true) :
    uniqKeys rest = true ∧
    ∀ p ∈ rest, valueEq k p.1 = false ∧ valueEq p.1 k = false := by
  simp only [uniqKeys, Bool.and_eq_true, List.all_eq_true] at h
  refine ⟨h.2, fun p hp => ?_⟩
  have := h.1 p hp
  simp only [Bool.and_eq_true, Bool.not_eq_true'] at this
  exact this

theorem mapGet_self : ∀ (m : List (Value × Value)) (k v : Value),
    (k, v) ∈ m → uniqKeys m = true → valueEq k k = true → mapGet k m = some v
  | [], k, v, hm, _, _ => absurd hm (List.not_mem_nil _)
  | (k2, v2) :: rest, k, v, hm, hu, hrefl => by
    obtain ⟨hurest, hune⟩ := uniqKeys_cons hu
    rcases List.mem_cons.mp hm with heq | hmem
    · cases heq
      simp [mapGet, hrefl]
    · have hne : valueEq k k2 = false := (hune (k, v) hmem).2
      simp only [mapGet, hne, Bool.false_eq_true, if_false]
      exact mapGet_self rest k v hmem hurest hrefl

theorem mapIncl_of_forall : ∀ (l m : List (Value × Value)),
    (∀ p ∈ l, mapGet p.1 m = some p.2 ∧ valueEq p.2 p.2 = true) →
    mapIncl l m = true
  | [], _, _ => by simp [mapIncl]
  | (k, v) :: rest, m, h => by
    have hh := h (k, v) (List.mem_cons_self _ _)
    simp only [mapIncl, Bool.and_eq_true]
    constructor
    · rw [hh.1]
      exact hh.2
    · exact mapIncl_of_forall rest m (fun q hq => h q (List.mem_cons_of_mem _ hq))

mutual
theorem valueEq_refl : ∀ (v : Value), wfValue v = true → valueEq v v = true
  | .null, _ => by simp [valueEq]
  | .bool b, _ => by simp [valueEq]
  | .number n, _ => by simp [valueEq]
  | .str s, _ => by simp [valueEq]
  | .sequence xs, h => by
    rw [show valueEq (.sequence xs) (.sequence xs) = seqEq xs xs from by
      simp [valueEq]]
    exact seqEq_refl xs (by simpa [wfValue] using h)
  | .mapping m, h => by
    rw [show valueEq (.mapping m) (.mapping m) =
        (m.length == m.length && mapIncl m m) from by simp [valueEq]]
    simp only [beq_self_eq_true, Bool.true_and]
    simp only [wfValue, Bool.and_eq_true] at h
    have hrefl := entries_refl m h.2
    refine mapIncl_of_forall m m (fun p hp => ?_)
    refine ⟨?_, (hrefl p hp).2⟩
    have := mapGet_self m p.1 p.2 ?_ h.1 (hrefl p hp).1
    · exact this
    · rw [Prod.mk.eta] at *
      exact hp
  | .tagged t v, h => by
    rw [show valueEq (.tagged t v) (.tagged t v) = (t == t && valueEq v v)
      from by simp [valueEq]]
    simp only [beq_self_eq_true, Bool.true_and]
    exact valueEq_refl v (by simpa [wfValue] using h)
  termination_by v _ => sizeOf v

theorem seqEq_refl : ∀ (xs : List Value), wfList xs = true → seqEq xs xs = true
  | [], _ => by simp [seqEq]
  | x :: xs, h => by
    simp only [wfList, Bool.and_eq_true] at h
    rw [show seqEq (x :: xs) (x :: xs) = (valueEq x x && seqEq xs xs) from by
      simp [seqEq]]
    rw [valueEq_refl x h.1, seqEq_refl xs h.2]
    rfl
  termination_by xs _ => sizeOf xs

theorem entries_refl : ∀ (l : List (Value × Value)), wfEntries l = true →
    ∀ p ∈ l, valueEq p.1 p.1 = true ∧ valueEq p.2 p.2 = true
  | [], _, p, hp => absurd hp (List.not_mem_nil p)
  | (k, v) :: rest, h, p, hp => by
    simp only [wfEntries, Bool.and_eq_true] at h
    rcases List.mem_cons.mp hp with rfl | hmem
    · exact ⟨valueEq_refl k h.1.1, valueEq_refl v h.1.2⟩
    · exact entries_refl rest h.2 p hmem
  termination_by l _ => sizeOf l
end

/-! ### The diff engine -/

/-- Embeds the `ConfigDiff` result struct. -/
structure ConfigDiff where
  added : List (String × Value)
  removed : List (String × Value)
  modified : List (String × (Value × Value))

/-- Embeds `cmp_yml_vals` from src/main.rs: flattens both documents, then
added = keys of new minus keys of old (values from new), removed = keys of
old minus keys of new (values from old), modified = keys in both whose old
and new values differ under `valueEq`, paired as (old, new).  The `BTreeMap`
ordering of the Rust result is not modelled: the key comparator is `Equal`
exactly on identical strings, so the map contents are determined by
membership alone. -/
def cmp_yml_vals (old new : Value) : ConfigDiff :=
  let old_key_vals := extract_key_vals old ""
  let new_key_vals := extract_key_vals new ""
  let old_keys := keysOf old_key_vals
  let new_keys := keysOf new_key_vals
  let added_keys := new_keys.filter (fun k => !old_keys.contains k)
  let added := added_keys.filterMap
    (fun k => (hfind new_key_vals k).map (fun v => (k, v)))
  let removed_keys := old_keys.filter (fun k => !new_keys.contains k)
  let removed := removed_keys.filterMap
    (fun k => (hfind old_key_vals k).map (fun v => (k, v)))
  let modified := (old_keys.filter (fun k => new_keys.contains k)).filterMap
    (fun k =>
      match hfind old_key_vals k, hfind new_key_vals k with
      | some vo, some vn => if valueEq vo vn then none else some (k, (vo, vn))
      | _, _ => none)
  ⟨added, removed, modified⟩

theorem hfind_mem {α : Type} : ∀ (m : List (String × α)) (k : String) (v : α),
    hfind m k = some v → (k, v) ∈ m
  | [], k, v, h => by simp [hfind] at h
  | (k', v') :: rest, k, v, h => by
    simp only [hfind] at h
    split_ifs at h with he
    · injection h with hv
      subst hv
      subst he
      exact List.mem_cons_self _ _
    · exact List.mem_cons_of_mem _ (hfind_mem rest k v h)

theorem mem_keys_iff_hfind {α : Type} : ∀ (m : List (String × α)) (k : String),
    k ∈ keysOf m ↔ ∃ v, hfind m k = some v
  | [], k => by simp [keysOf, hfind]
  | (k', v') :: rest, k => by
    have ih := mem_keys_iff_hfind rest k
    simp only [keysOf, List.map_cons, List.mem_cons, hfind] at ih ⊢
    rcases eq_or_ne k' k with rfl | hne
    · simp
    · rw [if_neg hne, ← ih]
      simp [Ne.symm hne]

theorem mem_added_iff (old new : Value) (k : String) (v : Value) :
    (k, v) ∈ (cmp_yml_vals old new).added ↔
      k ∈ keysOf (extract_key_vals new "") ∧
      k ∉ keysOf (extract_key_vals old "") ∧
      hfind (extract_key_vals new "") k = some v := by
  simp only [cmp_yml_vals]
  rw [List.mem_filterMap]
  constructor
  · rintro ⟨k', hk', hf⟩
    rw [List.mem_filter] at hk'
    rcases Option.map_eq_some'.mp hf with ⟨v', hv', heq⟩
    cases heq
    refine ⟨hk'.1, ?_, hv'⟩
    have hcon := hk'.2
    simpa using hcon
  · rintro ⟨hkn, hko, hf⟩
    refine ⟨k, List.mem_filter.mpr ⟨hkn, by simpa using hko⟩, ?_⟩
    rw [hf]
    rfl

theorem mem_removed_iff (old new : Value) (k : String) (v : Value) :
    (k, v) ∈ (cmp_yml_vals old new).removed ↔
      k ∈ keysOf (extract_key_vals old "") ∧
      k ∉ keysOf (extract_key_vals new "") ∧
      hfind (extract_key_vals old "") k = some v := by
  simp only [cmp_yml_vals]
  rw [List.mem_filterMap]
  constructor
  · rintro ⟨k', hk', hf⟩
    rw [List.mem_filter] at hk'
    rcases Option.map_eq_some'.mp hf with ⟨v', hv', heq⟩
    cases heq
    refine ⟨hk'.1, ?_, hv'⟩
    have hcon := hk'.2
    simpa using hcon
  · rintro ⟨hko, hkn, hf⟩
    refine ⟨k, List.mem_filter.mpr ⟨hko, by simpa using hkn⟩, ?_⟩
    rw [hf]
    rfl

theorem mem_modified_iff (old new : Value) (k : String) (vo vn : Value) :
    (k, (vo, vn)) ∈ (cmp_yml_vals old new).modified ↔
      k ∈ keysOf (extract_key_vals old "") ∧
      k ∈ keysOf (extract_key_vals new "") ∧
      hfind (extract_key_vals old "") k = some vo ∧
      hfind (extract_key_vals new "") k = some vn ∧
      valueEq vo vn = false := by
  simp only [cmp_yml_vals]
  rw [List.mem_filterMap]
  constructor
  · rintro ⟨k', hk', hf⟩
    rw [List.mem_filter] at hk'
    rcases ho : hfind (extract_key_vals old "") k' with _ | vo'
    · rw [ho] at hf
      simp at hf
    · rcases hn : hfind (extract_key_vals new "") k' with _ | vn'
      · rw [ho, hn] at hf
        simp at hf
      · rw [ho, hn] at hf
        simp only [] at hf
        split_ifs at hf with hveq
        simp only [Option.some.injEq, Prod.mk.injEq] at hf
        obtain ⟨rfl, rfl, rfl⟩ := hf
        exact ⟨hk'.1, by simpa using hk'.2, ho, hn, by simpa using hveq⟩
  · rintro ⟨hko, hkn, ho, hn, hv⟩
    refine ⟨k, List.mem_filter.mpr ⟨hko, by simpa using hkn⟩, ?_⟩
    rw [ho, hn]
    simp [hv]

/-- C3: `cmp_yml_vals` computes exactly the specified three maps: added
holds exactly the paths present in the flattening of new but not of old,
with the value from new; removed symmetrically with the value from old;
modified holds exactly the paths present in both whose values are not
deep-structurally equal, with the (old, new) value pair; a path present in
both with equal values is in none of the maps (it satisfies none of the
three right-hand sides). -/
theorem cmp_yml_vals_characterization (old new : Value) (k : String)
    (v vo vn : Value) :
    ((k, v) ∈ (cmp_yml_vals old new).added ↔
      k ∈ keysOf (extract_key_vals new "") ∧
      k ∉ keysOf (extract_key_vals old "") ∧
      hfind (extract_key_vals new "") k = some v) ∧
    ((k, v) ∈ (cmp_yml_vals old new).removed ↔
      k ∈ keysOf (extract_key_vals old "") ∧
      k ∉ keysOf (extract_key_vals new "") ∧
      hfind (extract_key_vals old "") k = some v) ∧
    ((k, (vo, vn)) ∈ (cmp_yml_vals old new).modified ↔
      k ∈ keysOf (extract_key_vals old "") ∧
      k ∈ keysOf (extract_key_vals new "") ∧
      hfind (extract_key_vals old "") k = some vo ∧
      hfind (extract_key_vals new "") k = some vn ∧
      valueEq vo vn = false) :=
  ⟨mem_added_iff old new k v, mem_removed_iff old new k v,
   mem_modified_iff old new k vo vn⟩

/-- C7: the key sets of the three result maps of `cmp_yml_vals` are pairwise
disjoint. -/
theorem cmp_yml_vals_key_sets_disjoint (old new : Value) :
    (keysOf (cmp_yml_vals old new).added).Disjoint
      (keysOf (cmp_yml_vals old new).removed) ∧
    (keysOf (cmp_yml_vals old new).added).Disjoint
      (keysOf (cmp_yml_vals old new).modified) ∧
    (keysOf (cmp_yml_vals old new).removed).Disjoint
      (keysOf (cmp_yml_vals old new).modified) := by
  refine ⟨?_, ?_, ?_⟩ <;> intro k hk1 hk2
  · obtain ⟨⟨k1, v1⟩, hp1, rfl⟩ := List.mem_map.mp hk1
    obtain ⟨⟨k2, v2⟩, hp2, heq⟩ := List.mem_map.mp hk2
    rw [show k2 = k1 from heq] at hp2
    have h1 := (mem_added_iff old new k1 v1).mp hp1
    have h2 := (mem_removed_iff old new k1 v2).mp hp2
    exact h1.2.1 h2.1
  · obtain ⟨⟨k1, v1⟩, hp1, rfl⟩ := List.mem_map.mp hk1
    obtain ⟨⟨k2, v2, v3⟩, hp2, heq⟩ := List.mem_map.mp hk2
    rw [show k2 = k1 from heq] at hp2
    have h1 := (mem_added_iff old new k1 v1).mp hp1
    have h2 := (mem_modified_iff old new k1 v2 v3).mp hp2
    exact h1.2.1 h2.1
  · obtain ⟨⟨k1, v1⟩, hp1, rfl⟩ := List.mem_map.mp hk1
    obtain ⟨⟨k2, v2, v3⟩, hp2, heq⟩ := List.mem_map.mp hk2
    rw [show k2 = k1 from heq] at hp2
    have h1 := (mem_removed_iff old new k1 v1).mp hp1
    have h2 := (mem_modified_iff old new k1 v2 v3).mp hp2
    exact h1.2.1 h2.2.1

theorem extractLoop_vals_wf :
    ∀ (entries : List (Value × Value)) (pfx : String)
      (acc : List (String × Value)), (∀ p ∈ entries, wfValue p.2 = true) →
      (∀ p ∈ acc, wfValue p.2 = true) →
      ∀ p ∈ extractLoop entries pfx acc, wfValue p.2 = true
  | [], _, acc, _, hacc => fun p hmem => hacc p hmem
  | (k, v) :: rest, pfx, acc, hent, hacc => fun p hmem => by
    rcases hk : asStr k with _ | ks
    · rw [extractLoop_cons_none hk] at hmem
      exact extractLoop_vals_wf rest pfx acc
        (fun q hq => hent q (List.mem_cons_of_mem _ hq)) hacc p hmem
    · rcases hv : isMapping v with _ | _
      · rw [extractLoop_cons_leaf ks hk hv] at hmem
        refine extractLoop_vals_wf rest pfx _
          (fun q hq => hent q (List.mem_cons_of_mem _ hq)) ?_ p hmem
        intro q hq
        rcases mem_hinsert _ _ _ q hq with h1 | h2
        · exact hacc q h1
        · rw [h2]
          exact hent (k, v) (List.mem_cons_self _ _)
      · obtain ⟨m', rfl⟩ := value_eq_mapping_of_isMapping hv
        rw [extractLoop_cons_mapping ks hk m'] at hmem
        refine extractLoop_vals_wf rest pfx _
          (fun q hq => hent q (List.mem_cons_of_mem _ hq)) ?_ p hmem
        intro q hq
        rcases mem_hextend _ _ q hq with h1 | h2
        · exact hacc q h1
        · rw [extract_key_vals_mapping] at h2
          have hm' : wfValue (Value.mapping m') = true :=
            hent (k, .mapping m') (List.mem_cons_self _ _)
          simp only [wfValue, Bool.and_eq_true] at hm'
          exact extractLoop_vals_wf m' _ []
            (fun q' hq' => (wfEntries_mem m' hm'.2 q' hq').2) (by simp) q h2
  termination_by entries _ _ _ _ => sizeOf entries

theorem extract_vals_wf (D : Value) (h : wfValue D = true) :
    ∀ p ∈ extract_key_vals D "", wfValue p.2 = true := by
  rcases hD : isMapping D with _ | _
  · rw [extract_key_vals_ne_mapping D hD, if_pos rfl]
    intro p hp
    exact absurd hp (List.not_mem_nil p)
  · obtain ⟨m, rfl⟩ := value_eq_mapping_of_isMapping hD
    rw [extract_key_vals_mapping]
    refine extractLoop_vals_wf m "" [] ?_ (by simp)
    simp only [wfValue, Bool.and_eq_true] at h
    exact fun p hp => (wfEntries_mem m h.2 p hp).2

/-- C6: diffing a document against itself yields empty added, removed and
modified maps (in particular for documents whose values are sequences,
compared wholesale).  The hypothesis `wfValue D` is the `IndexMap`
key-uniqueness invariant that every parsed `serde_yaml` document satisfies
by construction. -/
theorem cmp_yml_vals_self_empty (D : Value) (h : wfValue D = true) :
    (cmp_yml_vals D D).added = [] ∧ (cmp_yml_vals D D).removed = [] ∧
    (cmp_yml_vals D D).modified = [] := by
  have hfil : ∀ (l : List String), l.filter (fun k => !l.contains k) = [] := by
    intro l
    rw [List.filter_eq_nil_iff]
    intro a ha
    simp [ha]
  refine ⟨?_, ?_, ?_⟩
  · simp only [cmp_yml_vals]
    rw [hfil, List.filterMap_nil]
  · simp only [cmp_yml_vals]
    rw [hfil, List.filterMap_nil]
  · simp only [cmp_yml_vals]
    rw [List.filterMap_eq_nil_iff]
    intro k hk
    rw [List.mem_filter] at hk
    obtain ⟨v, hv⟩ := (mem_keys_iff_hfind _ k).mp hk.1
    rw [hv]
    have hwf : wfValue v = true := extract_vals_wf D h (k, v) (hfind_mem _ _ _ hv)
    simp [valueEq_refl v hwf]

theorem cmp_yml_vals_self_empty_witness :
    (cmp_yml_vals
        (Value.mapping [(.str "x", .sequence [.number 1, .number 2, .number 3])])
        (Value.mapping [(.str "x", .sequence [.number 1, .number 2, .number 3])])).added
      = [] ∧
    (cmp_yml_vals
        (Value.mapping [(.str "x", .sequence [.number 1, .number 2, .number 3])])
        (Value.mapping [(.str "x", .sequence [.number 1, .number 2, .number 3])])).removed
      = [] ∧
    (cmp_yml_vals
        (Value.mapping [(.str "x", .sequence [.number 1, .number 2, .number 3])])
        (Value.mapping [(.str "x", .sequence [.number 1, .number 2, .number 3])])).modified
      = [] :=
  cmp_yml_vals_self_empty
    (Value.mapping [(.str "x", .sequence [.number 1, .number 2, .number 3])])
    (by simp [wfValue, wfEntries, wfList, uniqKeys])

/-! ### The value renderer (C4, C8) -/

/-- Rust `Debug` escaping of a character inside a quoted string (the escapes
relevant to config strings; other characters render verbatim). -/
def escapeChar (c : Char) : String :=
  if c = '"' then "\\\""
  else if c = '\\' then "\\\\"
  else if c = '\n' then "\\n"
  else if c = '\t' then "\\t"
  else if c = '\r' then "\\r"
  else String.singleton c

/-- Rust `{:?}` rendering of a string: quoted and escaped (as produced for
the keys and values of the `HashMap` dump in the Mapping branch). -/
def concatAll : List String → String
  | [] => ""
  | s :: rest => s ++ concatAll rest

def dbgStr (s : String) : String :=
  "\"" ++ concatAll (s.data.map escapeChar) ++ "\""

mutual
/-- Embeds `get_val_string` from src/main.rs.  The Mapping branch collects
the rendered (key, value) pairs into a `std::collections::HashMap` (equal
rendered keys collapse, later insert wins) and formats it with `{:?}`; the
Debug iteration order of that map depends on its random hash seed and is
modelled by the explicit reordering parameter `π` applied to the
deduplicated entry list (an admissible `π` is a permutation, `permOK`). -/
def get_val_string
    (π : List (String × String) → List (String × String)) : Value → String
  | .null => "null"
  | .bool b => if b then "true" else "false"
  | .number n => toString n
  | .str s => s
  | .sequence seq =>
      "[" ++ String.intercalate ", " (renderSeq π seq) ++ "]"
  | .mapping m =>
      "\x7b" ++ String.intercalate ", "
        ((π (hextend [] (renderPairs π m))).map
          (fun p => dbgStr p.1 ++ ": " ++ dbgStr p.2)) ++ "\x7d"
  | .tagged t v => t ++ ":" ++ get_val_string π v

/-- Renders each element of a sequence (the `seq.iter().map(...)` of the
Sequence branch). -/
def renderSeq (π : List (String × String) → List (String × String)) :
    List Value → List String
  | [] => []
  | v :: rest => get_val_string π v :: renderSeq π rest

/-- Renders the (key, value) pairs of a mapping (the `m.iter().map(...)` of
the Mapping branch). -/
def renderPairs (π : List (String × String) → List (String × String)) :
    List (Value × Value) → List (String × String)
  | [] => []
  | (k, v) :: rest =>
      (get_val_string π k, get_val_string π v) :: renderPairs π rest
end

/-- Admissible hash-map iteration orders: `π` permutes its input. -/
def permOK (π : List (String × String) → List (String × String)) : Prop :=
  ∀ l, (π l).Perm l

theorem renderSeq_eq_map (π : List (String × String) → List (String × String)) :
    ∀ (xs : List Value), renderSeq π xs = xs.map (get_val_string π)
  | [] => rfl
  | v :: rest => by
    rw [show renderSeq π (v :: rest) = get_val_string π v :: renderSeq π rest
      from rfl]
    rw [renderSeq_eq_map π rest]
    rfl

/-- C8: the renderer is total over every document value variant (it is a
total function) and produces exactly: "null" for Null; "true"/"false" for
Boolean; the number's decimal text for Number; the raw string content for
String; bracketed, comma-and-space-joined recursive renderings for
Sequence; and tag ++ ":" ++ rendered inner value for Tagged. -/
theorem get_val_string_spec
    (π : List (String × String) → List (String × String)) :
    (get_val_string π .null = "null") ∧
    (∀ b, get_val_string π (.bool b) = if b then "true" else "false") ∧
    (∀ n : Int, get_val_string π (.number n) = toString n) ∧
    (∀ s, get_val_string π (.str s) = s) ∧
    (∀ xs, get_val_string π (.sequence xs) =
      "[" ++ String.intercalate ", " (xs.map (get_val_string π)) ++ "]") ∧
    (∀ t v, get_val_string π (.tagged t v) = t ++ ":" ++ get_val_string π v) := by
  refine ⟨rfl, fun b => rfl, fun n => rfl, fun s => rfl, fun xs => ?_,
    fun t v => rfl⟩
  rw [show get_val_string π (.sequence xs) =
      "[" ++ String.intercalate ", " (renderSeq π xs) ++ "]" from rfl]
  rw [renderSeq_eq_map π xs]

/-- C4 counterexample: rendering the two-entry mapping binding a ↦ 1 and
b ↦ 2 under two admissible hash-map iteration orders (identity and
reversal, both permutations of the entry list) yields two different
strings, so `get_val_string` on a fixed input is not one fixed string
across runs. -/
theorem get_val_string_nondeterministic_counterexample :
    get_val_string (fun l => l)
        (.mapping [(.str "a", .number 1), (.str "b", .number 2)]) ≠
      get_val_string List.reverse
        (.mapping [(.str "a", .number 1), (.str "b", .number 2)]) := by
  decide

mutual
/-- Every Mapping node in the value has at most one entry (so its hash-map
dump has at most one element and no iteration-order freedom). -/
def smallMaps : Value → Bool
  | .sequence xs => smallMapsList xs
  | .mapping m => decide (m.length ≤ 1) && smallMapsEntries m
  | .tagged _ v => smallMaps v
  | _ => true

/-- `smallMaps` for every element of a list. -/
def smallMapsList : List Value → Bool
  | [] => true
  | v :: rest => smallMaps v && smallMapsList rest

/-- `smallMaps` for every key and value of a list of entries. -/
def smallMapsEntries : List (Value × Value) → Bool
  | [] => true
  | (k, v) :: rest => smallMaps k && smallMaps v && smallMapsEntries rest
end

mutual
theorem get_val_string_det
    (π₁ π₂ : List (String × String) → List (String × String))
    (h₁ : permOK π₁) (h₂ : permOK π₂) :
    ∀ (v : Value), smallMaps v = true →
      get_val_string π₁ v = get_val_string π₂ v
  | .null, _ => rfl
  | .bool b, _ => rfl
  | .number n, _ => rfl
  | .str s, _ => rfl
  | .sequence xs, h => by
    rw [show get_val_string π₁ (.sequence xs) =
        "[" ++ String.intercalate ", " (renderSeq π₁ xs) ++ "]" from rfl]
    rw [show get_val_string π₂ (.sequence xs) =
        "[" ++ String.intercalate ", " (renderSeq π₂ xs) ++ "]" from rfl]
    rw [renderSeq_det π₁ π₂ h₁ h₂ xs (by simpa [smallMaps] using h)]
  | .tagged t v, h => by
    rw [show get_val_string π₁ (.tagged t v) = t ++ ":" ++ get_val_string π₁ v
      from rfl]
    rw [show get_val_string π₂ (.tagged t v) = t ++ ":" ++ get_val_string π₂ v
      from rfl]
    rw [get_val_string_det π₁ π₂ h₁ h₂ v (by simpa [smallMaps] using h)]
  | .mapping m, h => by
    have hsm : m.length ≤ 1 ∧ smallMapsEntries m = true := by
      simpa [smallMaps] using h
    have hr : renderPairs π₁ m = renderPairs π₂ m :=
      renderPairs_det π₁ π₂ h₁ h₂ m hsm.2
    rw [show get_val_string π₁ (.mapping m) =
        "\x7b" ++ String.intercalate ", "
          ((π₁ (hextend [] (renderPairs π₁ m))).map
            (fun p => dbgStr p.1 ++ ": " ++ dbgStr p.2)) ++ "\x7d" from rfl]
    rw [show get_val_string π₂ (.mapping m) =
        "\x7b" ++ String.intercalate ", "
          ((π₂ (hextend [] (renderPairs π₂ m))).map
            (fun p => dbgStr p.1 ++ ": " ++ dbgStr p.2)) ++ "\x7d" from rfl]
    rw [hr]
    rcases m with _ | ⟨p, rest⟩
    · rw [show renderPairs π₂ ([] : List (Value × Value)) = [] from rfl]
      rw [show hextend ([] : List (String × String)) [] = [] from rfl]
      rw [List.Perm.eq_nil (h₁ []), List.Perm.eq_nil (h₂ [])]
    · rcases rest with _ | ⟨q, rest2⟩
      · obtain ⟨k, v⟩ := p
        rw [show renderPairs π₂ [(k, v)] =
            [(get_val_string π₂ k, get_val_string π₂ v)] from rfl]
        rw [show hextend ([] : List (String × String))
            [(get_val_string π₂ k, get_val_string π₂ v)] =
            [(get_val_string π₂ k, get_val_string π₂ v)] from rfl]
        rw [List.perm_singleton.mp (h₁ _), List.perm_singleton.mp (h₂ _)]
      · exfalso
        have := hsm.1
        simp at this
  termination_by v _ => sizeOf v

theorem renderSeq_det
    (π₁ π₂ : List (String × String) → List (String × String))
    (h₁ : permOK π₁) (h₂ : permOK π₂) :
    ∀ (xs : List Value), smallMapsList xs = true →
      renderSeq π₁ xs = renderSeq π₂ xs
  | [], _ => rfl
  | v :: rest, h => by
    have hh : smallMaps v = true ∧ smallMapsList rest = true := by
      simpa [smallMapsList] using h
    rw [show renderSeq π₁ (v :: rest) =
        get_val_string π₁ v :: renderSeq π₁ rest from rfl]
    rw [show renderSeq π₂ (v :: rest) =
        get_val_string π₂ v :: renderSeq π₂ rest from rfl]
    rw [get_val_string_det π₁ π₂ h₁ h₂ v hh.1,
      renderSeq_det π₁ π₂ h₁ h₂ rest hh.2]
  termination_by xs _ => sizeOf xs

theorem renderPairs_det
    (π₁ π₂ : List (String × String) → List (String × String))
    (h₁ : permOK π₁) (h₂ : permOK π₂) :
    ∀ (l : List (Value × Value)), smallMapsEntries l = true →
      renderPairs π₁ l = renderPairs π₂ l
  | [], _ => rfl
  | (k, v) :: rest, h => by
    have hh : smallMaps k = true ∧ smallMaps v = true ∧
        smallMapsEntries rest = true := by
      simpa [smallMapsEntries, Bool.and_assoc] using h
    rw [show renderPairs π₁ ((k, v) :: rest) =
        (get_val_string π₁ k, get_val_string π₁ v) :: renderPairs π₁ rest
      from rfl]
    rw [show renderPairs π₂ ((k, v) :: rest) =
        (get_val_string π₂ k, get_val_string π₂ v) :: renderPairs π₂ rest
      from rfl]
    rw [get_val_string_det π₁ π₂ h₁ h₂ k hh.1,
      get_val_string_det π₁ π₂ h₁ h₂ v hh.2.1,
      renderPairs_det π₁ π₂ h₁ h₂ rest hh.2.2]
  termination_by l _ => sizeOf l
end

/-- C4 (amended): the renderer is deterministic on every value all of whose
Mapping nodes have at most one entry: any two admissible hash-map iteration
orders produce the identical string.  For a value containing a Mapping with
two or more entries the output depends on the iteration order, per the
counterexample, so the rendered form is not stable across runs. -/
theorem get_val_string_deterministic_of_smallMaps
    (π₁ π₂ : List (String × String) → List (String × String))
    (h₁ : permOK π₁) (h₂ : permOK π₂) (v : Value) (h : smallMaps v = true) :
    get_val_string π₁ v = get_val_string π₂ v :=
  get_val_string_det π₁ π₂ h₁ h₂ v h

theorem get_val_string_deterministic_witness :
    get_val_string (fun l => l)
        (.mapping [(.str "a", .sequence [.number 1, .number 2])]) =
      get_val_string List.reverse
        (.mapping [(.str "a", .sequence [.number 1, .number 2])]) :=
  get_val_string_deterministic_of_smallMaps (fun l => l) List.reverse
    (fun l => List.Perm.refl l) (fun l => List.reverse_perm l)
    (.mapping [(.str "a", .sequence [.number 1, .number 2])]) (by decide)

/-! ### Config loading (C9) -/

/-- Embeds `read_cfg` from src/main.rs, with the file system (`File::open`
plus buffered read) and the YAML parser as explicit function parameters.
An open failure `e` becomes the message `读取配置文件失败！{e}: {path:?}`
(the `{:?}` of a `PathBuf` quotes it); a parse failure `e` becomes
`解析旧版配置文件失败！{e}`, which does not mention the path. -/
def read_cfg (openFile : String → Except String String)
    (parseYaml : String → Except String Value) (path : String) :
    Except String Value :=
  match openFile path with
  | .error e => .error ("读取配置文件失败！" ++ e ++ ": " ++ dbgStr path)
  | .ok content =>
    match parseYaml content with
    | .error e => .error ("解析旧版配置文件失败！" ++ e)
    | .ok v => .ok v

/-- Embeds the loading sequence of `main`: read the old file, then the new
file; the first failure is propagated by `?` and the diff never runs. -/
def main_model (openFile : String → Except String String)
    (parseYaml : String → Except String Value) (oldPath newPath : String) :
    Except String ConfigDiff :=
  match read_cfg openFile parseYaml oldPath with
  | .error e => .error e
  | .ok oldVal =>
    match read_cfg openFile parseYaml newPath with
    | .error e => .error e
    | .ok newVal => .ok (cmp_yml_vals oldVal newVal)

/-- Leading-run test for char lists. -/
def isPrefList : List Char → List Char → Bool
  | [], _ => true
  | _ :: _, [] => false
  | a :: as, b :: bs => a == b && isPrefList as bs

/-- Occurrence of `n` as a contiguous run inside the second list. -/
def occursIn (n : List Char) : List Char → Bool
  | [] => isPrefList n []
  | c :: cs => isPrefList n (c :: cs) || occursIn n cs

/-- Substring test: `needle` occurs contiguously in `hay`. -/
def strContains (hay needle : String) : Bool := occursIn needle.data hay.data

theorem isPrefList_append_self : ∀ (n b : List Char),
    isPrefList n (n ++ b) = true
  | [], _ => rfl
  | c :: cs, b => by
    simp only [List.cons_append, isPrefList, beq_self_eq_true, Bool.true_and]
    exact isPrefList_append_self cs b

theorem occursIn_append : ∀ (a n b : List Char),
    occursIn n (a ++ (n ++ b)) = true
  | [], n, b => by
    rw [List.nil_append]
    rcases hnb : n ++ b with _ | ⟨c, cs⟩
    · have hn : n = [] := by
        rcases n with _ | _
        · rfl
        · simp at hnb
      subst hn
      rfl
    · have h1 : isPrefList n (c :: cs) = true := by
        rw [← hnb]
        exact isPrefList_append_self n b
      rw [show occursIn n (c :: cs) =
        (isPrefList n (c :: cs) || occursIn n cs) from rfl, h1]
      rfl
  | a :: as, n, b => by
    rw [List.cons_append, show occursIn n (a :: (as ++ (n ++ b))) =
      (isPrefList n (a :: (as ++ (n ++ b))) || occursIn n (as ++ (n ++ b)))
      from rfl]
    rw [occursIn_append as n b]
    exact Bool.or_true _

theorem isPrefList_head_eq : ∀ {a b : Char} {as bs s : List Char},
    isPrefList (a :: as) s = true → isPrefList (b :: bs) s = true → a = b := by
  intro a b as bs s h1 h2
  rcases s with _ | ⟨c, cs⟩
  · simp [isPrefList] at h1
  · simp only [isPrefList, Bool.and_eq_true, beq_iff_eq] at h1 h2
    rw [h1.1, h2.1]

/-- Characters needing no `Debug` escaping. -/
def plainChar (c : Char) : Bool :=
  !(c = '"' || c = '\\' || c = '\n' || c = '\t' || c = '\r')

theorem escapeChar_plain {c : Char} (h : plainChar c = true) :
    escapeChar c = String.singleton c := by
  simp only [plainChar, Bool.not_eq_true', Bool.or_eq_false_iff,
    decide_eq_false_iff_not] at h
  simp [escapeChar, h.1.1.1.1, h.1.1.1.2, h.1.1.2, h.1.2, h.2]

theorem join_escape_plain : ∀ (l : List Char), l.all plainChar = true →
    (concatAll (l.map escapeChar)).data = l
  | [], _ => rfl
  | c :: cs, h => by
    simp only [List.all_cons, Bool.and_eq_true] at h
    rw [List.map_cons, show concatAll (escapeChar c :: cs.map escapeChar) =
      escapeChar c ++ concatAll (cs.map escapeChar) from rfl]
    rw [String.data_append, escapeChar_plain h.1,
      join_escape_plain cs h.2]
    rfl

/-- C9 counterexample: with a file system that delivers content and a
parser that fails with cause "bad syntax", loading "cfg.yml" produces the
parse error message, and that message does not contain the offending path
"cfg.yml" anywhere — refuting the claim that both failure messages identify
the file path. -/
theorem read_cfg_parse_error_omits_path :
    read_cfg (fun _ => .ok "x: [") (fun _ => .error "bad syntax") "cfg.yml" =
      .error ("解析旧版配置文件失败！" ++ "bad syntax") ∧
    strContains ("解析旧版配置文件失败！" ++ "bad syntax") "cfg.yml" = false := by
  constructor
  · rfl
  · decide

/-- C9 (amended): load failures are reported distinguishably.  An I/O
failure produces the read-failure message, which starts with the
read-failure banner and contains the offending path (Debug-quoted; stated
for paths whose characters need no escaping).  A parse failure produces the
parse-failure message, which starts with the parse banner and carries the
cause description but not the path (per the counterexample).  The two
banners are mutually exclusive prefixes, so the two failure kinds are
distinguishable from the message.  Either failure of the old file makes
`main_model` return that error, so the diff never runs; the `Except.error`
result models the non-zero process exit of `main`. -/
theorem read_cfg_error_reporting
    (openFile : String → Except String String)
    (parseYaml : String → Except String Value) (path : String) (e : String) :
    (openFile path = .error e →
      read_cfg openFile parseYaml path =
        .error ("读取配置文件失败！" ++ e ++ ": " ++ dbgStr path) ∧
      (path.data.all plainChar = true →
        strContains ("读取配置文件失败！" ++ e ++ ": " ++ dbgStr path) path
          = true) ∧
      isPrefList ("读取配置文件失败！" : String).data
        ("读取配置文件失败！" ++ e ++ ": " ++ dbgStr path).data = true) ∧
    (∀ c, openFile path = .ok c → parseYaml c = .error e →
      read_cfg openFile parseYaml path =
        .error ("解析旧版配置文件失败！" ++ e) ∧
      isPrefList ("解析旧版配置文件失败！" : String).data
        ("解析旧版配置文件失败！" ++ e).data = true) ∧
    (∀ m : List Char,
      isPrefList ("读取配置文件失败！" : String).data m = true →
      isPrefList ("解析旧版配置文件失败！" : String).data m = true → False) ∧
    (∀ newPath m, read_cfg openFile parseYaml path = .error m →
      main_model openFile parseYaml path newPath = .error m) := by
  refine ⟨?_, ?_, ?_, ?_⟩
  · intro hopen
    refine ⟨by simp [read_cfg, hopen], ?_, ?_⟩
    · intro hplain
      have hq := join_escape_plain path.data hplain
      show occursIn path.data
        ("读取配置文件失败！" ++ e ++ ": " ++ dbgStr path).data = true
      have hshape : ("读取配置文件失败！" ++ e ++ ": " ++ dbgStr path).data =
          ("读取配置文件失败！" ++ e ++ ": " ++ "\"").data ++
            (path.data ++ ("\"" : String).data) := by
        simp [dbgStr, String.data_append, hq, List.append_assoc]
      rw [hshape]
      exact occursIn_append _ _ _
    · have hshape : ("读取配置文件失败！" ++ e ++ ": " ++ dbgStr path).data =
          ("读取配置文件失败！" : String).data ++
            (e.data ++ ((": " : String).data ++ (dbgStr path).data)) := by
        simp [String.data_append, List.append_assoc]
      rw [hshape]
      exact isPrefList_append_self _ _
  · intro c hopen hparse
    refine ⟨by simp [read_cfg, hopen, hparse], ?_⟩
    have hshape : ("解析旧版配置文件失败！" ++ e).data =
        ("解析旧版配置文件失败！" : String).data ++ e.data := by
      simp [String.data_append]
    rw [hshape]
    exact isPrefList_append_self _ _
  · intro m h1 h2
    have hc : ('读' : Char) = '解' := isPrefList_head_eq h1 h2
    exact absurd hc (by decide)
  · intro newPath m hm
    simp [main_model, hm]

theorem read_cfg_error_reporting_witness :
    read_cfg (fun _ => Except.error "No such file")
        (fun _ => Except.ok Value.null) "old.yml" =
      .error ("读取配置文件失败！" ++ "No such file" ++ ": " ++ dbgStr "old.yml") ∧
    strContains
      ("读取配置文件失败！" ++ "No such file" ++ ": " ++ dbgStr "old.yml")
      "old.yml" = true ∧
    main_model (fun _ => Except.error "No such file")
        (fun _ => Except.ok Value.null) "old.yml" "new.yml" =
      .error ("读取配置文件失败！" ++ "No such file" ++ ": " ++ dbgStr "old.yml") := by
  have h := read_cfg_error_reporting (fun _ => Except.error "No such file")
    (fun _ => Except.ok Value.null) "old.yml" "No such file"
  have h1 := h.1 rfl
  exact ⟨h1.1, h1.2.1 (by decide), h.2.2.2 "new.yml" _ h1.1⟩
